import Mathlib

/-!
# Game of Life: the sparse engine of `main.go`

A shallow embedding of `Cell`, `Cell.ForEachNeighbor`, `LifeState`, its
methods `Size`, `Set`, `Alive` and `Next`, and the constructor `NewLifeState`.

* Go's `int` is a 64-bit two's-complement integer (on a 64-bit platform); a
  coordinate is an `Int` and every `+` of the source is followed by `wrapInt`.
* A Go `map[Cell]bool` is a list of entries, one per key (`LifeState.WF`); the
  order of the list is the order in which `range` visits the entries.
  Functions assume but do not require well-formedness; separate theorems show
  that they preserve it.
* A closure called for its effect (`f` in `ForEachNeighbor`, and
  `calcNextCellState`) is a function that takes the state it updates and
  returns the new one.
* The random source of `NewLifeState` is a stream of raw values, and a call
  that can panic returns an `Except`.
* A list stands for a map made by `make`; reads treat the nil map as the empty
  map, and the method `Set` takes a receiver that may be the nil map.
-/

namespace GameOfLife

/-! ## Definitions -/

/-- Value of a 64-bit two's-complement `int` holding the mathematical integer `v`. -/
def wrapInt (v : Int) : Int := (v + 2 ^ 63) % 2 ^ 64 - 2 ^ 63

/-- Source: `type Cell struct { X, Y int }`. -/
structure Cell where
  X : Int
  Y : Int
deriving DecidableEq, Repr

/-- Both coordinates are values of the Go type `int`. -/
def Cell.InRange (c : Cell) : Prop :=
  -(2 ^ 63) ≤ c.X ∧ c.X < 2 ^ 63 ∧ -(2 ^ 63) ≤ c.Y ∧ c.Y < 2 ^ 63

instance (c : Cell) : Decidable c.InRange := by
  unfold Cell.InRange
  exact inferInstance

/-- Source: `Cell.ForEachNeighbor`. The two `for` loops run `i` and `j` over
`-1, 0, 1`; `f` is called for its effect on a state of type `σ`. -/
def Cell.ForEachNeighbor {σ : Type} (cell : Cell) (f : Cell → σ → σ) (s : σ) : σ :=
  ([-1, 0, 1] : List Int).foldl (fun s i =>
    ([-1, 0, 1] : List Int).foldl (fun s j =>
      if i ≠ 0 ∨ j ≠ 0 then
        f ⟨wrapInt (cell.X + i), wrapInt (cell.Y + j)⟩ s
      else s) s) s

/-- Source: `type LifeState map[Cell]bool`, as the list of its entries. -/
abbrev LifeState := List (Cell × Bool)

/-- A Go map holds one entry per key. -/
def LifeState.WF (ls : LifeState) : Prop := (ls.map Prod.fst).Nodup

instance (ls : LifeState) : Decidable ls.WF := by
  unfold LifeState.WF
  exact inferInstance

/-- The map index expression with the found flag, `v, found := m[cell]`. -/
def LifeState.find : LifeState → Cell → Option Bool
  | [], _ => none
  | (c, a) :: rest, cell => if c = cell then some a else LifeState.find rest cell

/-- Source: `LifeState.Size`, `len(*ls)`. -/
def LifeState.Size (ls : LifeState) : Nat := ls.length

/-- The assignment statement `m[cell] = alive` on a map made by `make`
(`(*ls)[cell] = alive` in `Set`, `nextState[cell] = ...` in `Next`,
`state[...] = true` in `NewLifeState`): the entry of `cell` is overwritten when
there is one, a new entry is added otherwise. -/
def LifeState.assign : LifeState → Cell → Bool → LifeState
  | [], cell, alive => [(cell, alive)]
  | (c, a) :: rest, cell, alive =>
    if c = cell then (c, alive) :: rest else (c, a) :: LifeState.assign rest cell alive

/-- Source: `LifeState.Alive`, `(*ls)[cell]`: `false` for a missing key. -/
def LifeState.Alive (ls : LifeState) (cell : Cell) : Bool :=
  (ls.find cell).getD false

/-- Source: the closure `calcNextCellState` of `LifeState.Next`, acting on
`nextState`. -/
def calcNextCellState (ls : LifeState) (cell : Cell) (nextState : LifeState) : LifeState :=
  if (nextState.find cell).isSome then
    -- already calculated
    nextState
  else
    let alive : Nat :=
      cell.ForEachNeighbor (fun cell alive => if ls.Alive cell then alive + 1 else alive) 0
    nextState.assign cell (alive == 3 || alive == 2 && ls.Alive cell)

/-- The `range` loop of `LifeState.Next` over the entries `order`, reading the
receiver `ls`. -/
def LifeState.nextOver (ls : LifeState) (order : List (Cell × Bool)) : LifeState :=
  order.foldl (fun nextState e =>
    if e.2 then
      e.1.ForEachNeighbor (calcNextCellState ls) (calcNextCellState ls e.1 nextState)
    else nextState) []

/-- Source: `LifeState.Next`. -/
def LifeState.Next (ls : LifeState) : LifeState := ls.nextOver ls

/-- The cells on which `ForEachNeighbor` calls `f`, in call order. -/
def neighborOffsets : List (Int × Int) :=
  [(-1, -1), (-1, 0), (-1, 1), (0, -1), (0, 1), (1, -1), (1, 0), (1, 1)]

/-- The cell at offset `d` from `c`, with Go's addition. -/
def Cell.shift (c : Cell) (d : Int × Int) : Cell :=
  ⟨wrapInt (c.X + d.1), wrapInt (c.Y + d.2)⟩

/-- The eight neighbours of a cell. -/
def Cell.neighbors (c : Cell) : List Cell := neighborOffsets.map c.shift

/-- Number of the eight neighbours of `c` that are alive in `ls`. -/
def LifeState.aliveNeighbors (ls : LifeState) (c : Cell) : Nat :=
  (c.neighbors.filter ls.Alive).length

/-- The cells that are alive, in entry order (the `if alive` loops of `String`
and `Draw`). -/
def LifeState.aliveCells (ls : LifeState) : List Cell :=
  (ls.filter Prod.snd).map Prod.fst

/-- The state after `k` generations. -/
def LifeState.iterNext : Nat → LifeState → LifeState
  | 0, ls => ls
  | k + 1, ls => LifeState.iterNext k ls.Next

/-- The blinker of three cells in a row. -/
def blinker : LifeState := [(⟨0, 0⟩, true), (⟨1, 0⟩, true), (⟨2, 0⟩, true)]

/-- The rule of the game: the value `calcNextCellState` records for `c`. -/
def LifeState.nextAlive (ls : LifeState) (c : Cell) : Bool :=
  ls.aliveNeighbors c == 3 || ls.aliveNeighbors c == 2 && ls.Alive c

/-- Successive calls of `calcNextCellState` on the cells of `cells`. -/
def calcAll (ls : LifeState) (cells : List Cell) (nextState : LifeState) : LifeState :=
  cells.foldl (fun ns c => calcNextCellState ls c ns) nextState

/-- The cells `calcNextCellState` is called on by the loop of `Next` over
`order`, in call order: each alive cell followed by its eight neighbours. -/
def candidates (order : List (Cell × Bool)) : List Cell :=
  order.flatMap (fun e => if e.2 then e.1 :: e.1.neighbors else [])

/-- The four cells of the 2x2 block at `(x, y)`; `x + 1` and `y + 1` are
Go's addition. -/
def blockCells (x y : Int) : List Cell :=
  [⟨x, y⟩, ⟨wrapInt (x + 1), y⟩, ⟨x, wrapInt (y + 1)⟩, ⟨wrapInt (x + 1), wrapInt (y + 1)⟩]

/-- The state whose entries are the four cells of the block, all alive. -/
def block (x y : Int) : LifeState := (blockCells x y).map (fun c => (c, true))

/-- The state whose only entry is the cell `(0, 0)`, alive. -/
def lonely : LifeState := [(⟨0, 0⟩, true)]

/-- The closure `calcNextCellState` with a log of the cells whose call got past
the already-calculated check: the second component lists, in order, the cells
for which the neighbours were counted and an entry was written. -/
def calcNextCellStateLogged (ls : LifeState) (cell : Cell)
    (st : LifeState × List Cell) : LifeState × List Cell :=
  if (st.1.find cell).isSome then
    -- already calculated
    st
  else
    let alive : Nat :=
      cell.ForEachNeighbor (fun cell alive => if ls.Alive cell then alive + 1 else alive) 0
    (st.1.assign cell (alive == 3 || alive == 2 && ls.Alive cell), st.2 ++ [cell])

/-- Source: `LifeState.Next`, run with the logging closure. -/
def LifeState.NextLogged (ls : LifeState) : LifeState × List Cell :=
  ls.foldl (fun st e =>
    if e.2 then
      e.1.ForEachNeighbor (calcNextCellStateLogged ls) (calcNextCellStateLogged ls e.1 st)
    else st) ([], [])

/-- A Go run-time panic. -/
inductive Panic where
  | invalidArgumentToIntn
  | assignmentToEntryInNilMap
deriving DecidableEq, Repr

/-- Source: `LifeState.Set`, `(*ls)[cell] = alive`, on the receiver a caller
holds: `none` is the nil map, the zero value of the type `LifeState`, on which
the assignment panics; `some ls` is a map made by `make`, as `NewLifeState` and
`Next` return. Reads (`Size`, `Alive`, `range`) treat the nil map as the empty
map. -/
def LifeState.Set (receiver : Option LifeState) (cell : Cell) (alive : Bool) :
    Except Panic LifeState :=
  match receiver with
  | none => Except.error Panic.assignmentToEntryInNilMap
  | some ls => Except.ok (ls.assign cell alive)

/-- Library `math/rand`, method `Intn`, by its documented contract: it panics
if `n <= 0` and otherwise returns an int in the half-open interval `[0, n)`.
`raw` is the value the random source delivers for this call; every result in
`[0, n)` comes from some `raw`. -/
def Intn (raw : Nat) (n : Int) : Except Panic Int :=
  if n ≤ 0 then Except.error Panic.invalidArgumentToIntn else Except.ok ((raw : Int) % n)

/-- The `for` loop of `NewLifeState` with `k` rounds left: `pos` counts the
values already drawn from the source `src`. The two calls of `Intn` in the
composite literal are made from left to right. -/
def newLifeStateLoop (src : Nat → Nat) (w h : Int) :
    Nat → Nat → LifeState → Except Panic LifeState
  | 0, _, state => Except.ok state
  | k + 1, pos, state =>
    match Intn (src pos) w with
    | Except.error e => Except.error e
    | Except.ok x =>
      match Intn (src (pos + 1)) h with
      | Except.error e => Except.error e
      | Except.ok y => newLifeStateLoop src w h k (pos + 2) (state.assign ⟨x, y⟩ true)

/-- Source: `NewLifeState`. The random source seeded from the clock is the
stream `src` of raw values. The bound `w*h/8` is computed in `int`: a wrapping
product and a division that truncates toward zero; the loop
`for i := 0; i < w*h/8; i++` makes that many rounds, none if it is not
positive. -/
def NewLifeState (src : Nat → Nat) (w h : Int) : Except Panic LifeState :=
  newLifeStateLoop src w h ((wrapInt (w * h)).tdiv 8).toNat 0 []

/-- The cell moved by the offset `(a, b)`, with Go's addition. -/
def Cell.translate (a b : Int) (c : Cell) : Cell :=
  ⟨wrapInt (c.X + a), wrapInt (c.Y + b)⟩

/-- The state with every entry moved from `(x, y)` to `(x+a, y+b)`. -/
def LifeState.translate (a b : Int) (ls : LifeState) : LifeState :=
  ls.map (fun e => (e.1.translate a b, e.2))

/-! ## Arithmetic of coordinates -/

theorem wrapInt_of_inRange (v : Int) (h1 : -(2 ^ 63) ≤ v) (h2 : v < 2 ^ 63) :
    wrapInt v = v := by
  unfold wrapInt; omega

theorem wrapInt_lower (v : Int) : -(2 ^ 63) ≤ wrapInt v := by
  unfold wrapInt; omega

theorem wrapInt_upper (v : Int) : wrapInt v < 2 ^ 63 := by
  unfold wrapInt; omega

theorem wrapInt_add_sub (v d : Int) (h1 : -(2 ^ 63) ≤ v) (h2 : v < 2 ^ 63) :
    wrapInt (wrapInt (v + d) + -d) = v := by
  unfold wrapInt; omega

/-! ## The neighbours of a cell -/

theorem forEachNeighbor_eq_foldl {σ : Type} (cell : Cell) (f : Cell → σ → σ) (s : σ) :
    cell.ForEachNeighbor f s = cell.neighbors.foldl (fun s c => f c s) s := by
  rfl

theorem neighbors_length (c : Cell) : c.neighbors.length = 8 := by
  rfl

theorem mem_neighbors_iff (c d : Cell) :
    d ∈ c.neighbors ↔ ∃ o ∈ neighborOffsets, d = c.shift o := by
  unfold Cell.neighbors
  constructor
  · intro h
    obtain ⟨o, ho, rfl⟩ := List.mem_map.mp h
    exact ⟨o, ho, rfl⟩
  · rintro ⟨o, ho, rfl⟩
    exact List.mem_map.mpr ⟨o, ho, rfl⟩

theorem neighbors_nodup (c : Cell) : c.neighbors.Nodup := by
  simp only [Cell.neighbors, neighborOffsets, Cell.shift, List.map_cons, List.map_nil,
    List.nodup_cons, List.mem_cons, List.mem_singleton, Cell.mk.injEq, List.not_mem_nil,
    not_or, not_and, List.nodup_nil, not_false_eq_true, and_true]
  unfold wrapInt
  refine ⟨?_, ?_, ?_, ?_, ?_, ?_, ?_⟩ <;> (try refine ⟨?_, ?_⟩) <;> omega

theorem not_mem_neighbors_self (c : Cell) : c ∉ c.neighbors := by
  obtain ⟨x, y⟩ := c
  simp only [Cell.neighbors, neighborOffsets, Cell.shift, List.map_cons, List.map_nil,
    List.mem_cons, List.mem_singleton, Cell.mk.injEq, List.not_mem_nil, not_or, not_and,
    or_false]
  unfold wrapInt
  refine ⟨?_, ?_, ?_, ?_, ?_, ?_, ?_, ?_⟩ <;> omega

theorem inRange_of_mem_neighbors (c d : Cell) (h : d ∈ c.neighbors) : d.InRange := by
  obtain ⟨o, -, rfl⟩ := (mem_neighbors_iff c d).mp h
  exact ⟨wrapInt_lower _, wrapInt_upper _, wrapInt_lower _, wrapInt_upper _⟩

theorem mem_neighbors_symm (c d : Cell) (hc : c.InRange) (h : d ∈ c.neighbors) :
    c ∈ d.neighbors := by
  obtain ⟨o, ho, rfl⟩ := (mem_neighbors_iff c d).mp h
  refine (mem_neighbors_iff _ _).mpr ⟨(-o.1, -o.2), ?_, ?_⟩
  · revert ho
    simp only [neighborOffsets, List.mem_cons, List.mem_singleton, List.not_mem_nil, or_false]
    rintro (h | h | h | h | h | h | h | h) <;> subst h <;> decide
  · obtain ⟨x, y⟩ := c
    obtain ⟨h1, h2, h3, h4⟩ := hc
    simp only [Cell.shift, Cell.mk.injEq]
    exact ⟨(wrapInt_add_sub x o.1 h1 h2).symm, (wrapInt_add_sub y o.2 h3 h4).symm⟩

/-! ## The map operations -/

theorem find_eq_none_iff (ls : LifeState) (c : Cell) :
    ls.find c = none ↔ c ∉ ls.map Prod.fst := by
  induction ls with
  | nil => simp [LifeState.find]
  | cons e rest ih =>
    obtain ⟨k, a⟩ := e
    by_cases hk : k = c
    · simp [LifeState.find, hk]
    · have hk2 : ¬ c = k := fun h => hk h.symm
      simp [LifeState.find, hk, hk2, ih]

theorem find_eq_some_iff (ls : LifeState) (hwf : ls.WF) (c : Cell) (b : Bool) :
    ls.find c = some b ↔ (c, b) ∈ ls := by
  induction ls with
  | nil => simp [LifeState.find]
  | cons e rest ih =>
    obtain ⟨k, a⟩ := e
    have hnd : k ∉ rest.map Prod.fst ∧ (rest.map Prod.fst).Nodup := by
      simpa [LifeState.WF] using hwf
    by_cases hk : k = c
    · subst hk
      have hno : ∀ b, (k, b) ∉ rest := fun b hb =>
        hnd.1 (List.mem_map.mpr ⟨(k, b), hb, rfl⟩)
      simp only [LifeState.find, if_true, Option.some.injEq, List.mem_cons, Prod.mk.injEq,
        true_and, hno, or_false]
      exact eq_comm
    · have hk2 : ¬ c = k := fun h => hk h.symm
      simp only [LifeState.find, hk, if_false, List.mem_cons, Prod.mk.injEq, hk2, false_and,
        false_or]
      exact ih hnd.2

theorem alive_iff_mem (ls : LifeState) (hwf : ls.WF) (c : Cell) :
    ls.Alive c = true ↔ (c, true) ∈ ls := by
  rw [← find_eq_some_iff ls hwf]
  unfold LifeState.Alive
  cases ls.find c <;> simp

theorem alive_of_find (ls : LifeState) (c : Cell) (b : Bool) (h : ls.find c = some b) :
    ls.Alive c = b := by
  simp [LifeState.Alive, h]

theorem alive_of_find_none (ls : LifeState) (c : Cell) (h : ls.find c = none) :
    ls.Alive c = false := by
  simp [LifeState.Alive, h]

theorem find_set (ls : LifeState) (c : Cell) (a : Bool) (d : Cell) :
    (ls.assign c a).find d = if c = d then some a else ls.find d := by
  induction ls with
  | nil => simp [LifeState.assign, LifeState.find]
  | cons e rest ih =>
    obtain ⟨k, b⟩ := e
    by_cases hk : k = c
    · subst hk
      by_cases hd : k = d <;> simp [LifeState.assign, LifeState.find, hd]
    · by_cases hd : k = d
      · subst hd
        have : ¬ c = k := fun h => hk h.symm
        simp [LifeState.assign, LifeState.find, hk, this]
      · simp [LifeState.assign, LifeState.find, hk, hd, ih]

theorem set_of_find_none (ls : LifeState) (c : Cell) (a : Bool) (h : ls.find c = none) :
    ls.assign c a = ls ++ [(c, a)] := by
  induction ls with
  | nil => rfl
  | cons e rest ih =>
    obtain ⟨k, b⟩ := e
    by_cases hk : k = c
    · simp [LifeState.find, hk] at h
    · simp only [LifeState.find, hk, if_false] at h
      simp [LifeState.assign, hk, ih h]

theorem keys_set_of_find_some (ls : LifeState) (c : Cell) (a : Bool)
    (h : (ls.find c).isSome = true) :
    (ls.assign c a).map Prod.fst = ls.map Prod.fst := by
  induction ls with
  | nil => simp [LifeState.find] at h
  | cons e rest ih =>
    obtain ⟨k, b⟩ := e
    by_cases hk : k = c
    · simp [LifeState.assign, hk]
    · simp only [LifeState.find, hk, if_false] at h
      simp [LifeState.assign, hk, ih h]

theorem wf_set (ls : LifeState) (hwf : ls.WF) (c : Cell) (a : Bool) : (ls.assign c a).WF := by
  unfold LifeState.WF at *
  cases hf : ls.find c with
  | none =>
    rw [set_of_find_none ls c a hf, List.map_append, List.nodup_append]
    refine ⟨hwf, by simp, ?_⟩
    intro k hk hk2
    simp only [List.map_cons, List.map_nil, List.mem_singleton] at hk2
    subst hk2
    exact (find_eq_none_iff ls k).mp hf hk
  | some b =>
    rw [keys_set_of_find_some ls c a (by simp [hf])]
    exact hwf

/-! ## One call of `calcNextCellState` -/

theorem count_foldl (p : Cell → Bool) (l : List Cell) (k : Nat) :
    l.foldl (fun n c => if p c then n + 1 else n) k = k + (l.filter p).length := by
  induction l generalizing k with
  | nil => simp
  | cons c rest ih =>
    by_cases hp : p c
    · simp [List.foldl_cons, hp, ih, List.filter_cons]; omega
    · simp [List.foldl_cons, hp, ih, List.filter_cons]

theorem count_forEachNeighbor (ls : LifeState) (c : Cell) :
    c.ForEachNeighbor (fun cell alive => if ls.Alive cell then alive + 1 else alive) 0
      = ls.aliveNeighbors c := by
  rw [forEachNeighbor_eq_foldl]
  have h := count_foldl ls.Alive c.neighbors 0
  simp only [Nat.zero_add] at h
  exact h

theorem calcNextCellState_eq (ls : LifeState) (c : Cell) (ns : LifeState) :
    calcNextCellState ls c ns
      = if (ns.find c).isSome then ns else ns.assign c (ls.nextAlive c) := by
  unfold calcNextCellState LifeState.nextAlive
  simp only [count_forEachNeighbor]

theorem find_calcNextCellState (ls : LifeState) (c : Cell) (ns : LifeState) (d : Cell) :
    (calcNextCellState ls c ns).find d
      = (ns.find d).or (if c = d then some (ls.nextAlive c) else none) := by
  rw [calcNextCellState_eq]
  by_cases hc : c = d
  · subst hc
    cases hf : ns.find c <;> simp [hf, find_set]
  · cases hf : ns.find c <;> cases hd : ns.find d <;> simp [hf, hd, find_set, hc]

theorem wf_calcNextCellState (ls : LifeState) (c : Cell) (ns : LifeState) (hwf : ns.WF) :
    (calcNextCellState ls c ns).WF := by
  rw [calcNextCellState_eq]
  split
  · exact hwf
  · exact wf_set ns hwf c _

/-! ## The loop of `Next` -/

theorem find_calcAll (ls : LifeState) (cells : List Cell) (ns : LifeState) (d : Cell) :
    (calcAll ls cells ns).find d
      = (ns.find d).or (if d ∈ cells then some (ls.nextAlive d) else none) := by
  induction cells generalizing ns with
  | nil => simp [calcAll, Option.or_none]
  | cons c rest ih =>
    have hstep : calcAll ls (c :: rest) ns = calcAll ls rest (calcNextCellState ls c ns) := rfl
    rw [hstep, ih, find_calcNextCellState]
    by_cases hc : c = d
    · subst hc
      cases hd : ns.find c <;> simp
    · have hc2 : ¬ d = c := fun h => hc h.symm
      cases hd : ns.find d <;> simp [hc, hc2]

theorem wf_calcAll (ls : LifeState) (cells : List Cell) (ns : LifeState) (hwf : ns.WF) :
    (calcAll ls cells ns).WF := by
  induction cells generalizing ns with
  | nil => exact hwf
  | cons c rest ih => exact ih _ (wf_calcNextCellState ls c ns hwf)

theorem calcAll_append (ls : LifeState) (l1 l2 : List Cell) (ns : LifeState) :
    calcAll ls (l1 ++ l2) ns = calcAll ls l2 (calcAll ls l1 ns) := by
  simp [calcAll, List.foldl_append]

theorem calcAll_neighbors (ls : LifeState) (c : Cell) (ns : LifeState) :
    c.ForEachNeighbor (calcNextCellState ls) (calcNextCellState ls c ns)
      = calcAll ls (c :: c.neighbors) ns := by
  rw [forEachNeighbor_eq_foldl]
  simp only [calcAll, List.foldl_cons]

theorem nextOver_loop (ls : LifeState) (order : List (Cell × Bool)) (ns : LifeState) :
    order.foldl (fun nextState e =>
      if e.2 then
        e.1.ForEachNeighbor (calcNextCellState ls) (calcNextCellState ls e.1 nextState)
      else nextState) ns = calcAll ls (candidates order) ns := by
  induction order generalizing ns with
  | nil => rfl
  | cons e rest ih =>
    obtain ⟨c, a⟩ := e
    rw [List.foldl_cons, ih]
    have hc : candidates ((c, a) :: rest)
        = (if a then c :: c.neighbors else []) ++ candidates rest := by
      simp only [candidates, List.flatMap_cons]
    rw [hc, calcAll_append]
    cases a
    · simp only [Bool.false_eq_true, if_false, calcAll, List.foldl_nil]
    · simp only [if_true, calcAll_neighbors]

theorem nextOver_eq (ls : LifeState) (order : List (Cell × Bool)) :
    ls.nextOver order = calcAll ls (candidates order) [] :=
  nextOver_loop ls order []

theorem find_nextOver (ls : LifeState) (order : List (Cell × Bool)) (d : Cell) :
    (ls.nextOver order).find d
      = if d ∈ candidates order then some (ls.nextAlive d) else none := by
  rw [nextOver_eq, find_calcAll]
  simp [LifeState.find]

theorem wf_nextOver (ls : LifeState) (order : List (Cell × Bool)) : (ls.nextOver order).WF := by
  rw [nextOver_eq]
  exact wf_calcAll ls _ [] (by simp [LifeState.WF])

theorem wf_next (ls : LifeState) : ls.Next.WF := wf_nextOver ls ls

theorem find_next (ls : LifeState) (d : Cell) :
    ls.Next.find d = if d ∈ candidates ls then some (ls.nextAlive d) else none :=
  find_nextOver ls ls d

theorem mem_candidates_iff (order : List (Cell × Bool)) (d : Cell) :
    d ∈ candidates order ↔ ∃ c, (c, true) ∈ order ∧ (d = c ∨ d ∈ c.neighbors) := by
  unfold candidates
  rw [List.mem_flatMap]
  constructor
  · rintro ⟨⟨c, a⟩, he, hd⟩
    cases a
    · simp at hd
    · exact ⟨c, he, by simpa using hd⟩
  · rintro ⟨c, hc, hd⟩
    exact ⟨(c, true), hc, by simpa using hd⟩

theorem mem_of_find_eq_some (ls : LifeState) (c : Cell) (b : Bool) (h : ls.find c = some b) :
    (c, b) ∈ ls := by
  induction ls with
  | nil => simp [LifeState.find] at h
  | cons e rest ih =>
    obtain ⟨k, a⟩ := e
    by_cases hk : k = c
    · simp only [LifeState.find, hk, if_true, Option.some.injEq] at h
      simp [hk, h]
    · simp only [LifeState.find, hk, if_false] at h
      exact List.mem_cons_of_mem _ (ih h)

theorem mem_of_alive (ls : LifeState) (c : Cell) (h : ls.Alive c = true) : (c, true) ∈ ls := by
  apply mem_of_find_eq_some
  unfold LifeState.Alive at h
  cases hf : ls.find c with
  | none => simp [hf] at h
  | some b => simp [hf] at h; simp [h]

theorem aliveNeighbors_eq_zero_of_not_mem (ls : LifeState) (c : Cell) (hc : c.InRange)
    (h : c ∉ candidates ls) : ls.aliveNeighbors c = 0 := by
  unfold LifeState.aliveNeighbors
  rw [List.length_eq_zero, List.filter_eq_nil_iff]
  intro d hd hal
  exact h ((mem_candidates_iff ls c).mpr
    ⟨d, mem_of_alive ls d hal, Or.inr (mem_neighbors_symm c d hc hd)⟩)

theorem nextAlive_iff (ls : LifeState) (c : Cell) :
    ls.nextAlive c = true ↔
      ls.aliveNeighbors c = 3 ∨ (ls.aliveNeighbors c = 2 ∧ ls.Alive c = true) := by
  simp [LifeState.nextAlive]

theorem next_alive_eq (ls : LifeState) (c : Cell) :
    ls.Next.Alive c = (decide (c ∈ candidates ls) && ls.nextAlive c) := by
  unfold LifeState.Alive
  rw [find_next]
  by_cases h : c ∈ candidates ls <;> simp [h]

/-- The entries of two well-formed states with the same lookups are the same
up to order. -/
theorem perm_of_find_eq (m1 m2 : LifeState) (h1 : m1.WF) (h2 : m2.WF)
    (h : ∀ c, m1.find c = m2.find c) : m1.Perm m2 := by
  rw [List.perm_ext_iff_of_nodup (List.Nodup.of_map _ h1) (List.Nodup.of_map _ h2)]
  rintro ⟨c, b⟩
  rw [← find_eq_some_iff m1 h1, ← find_eq_some_iff m2 h2, h]

theorem find_eq_of_perm (m1 m2 : LifeState) (h1 : m1.WF) (hp : m1.Perm m2) (c : Cell) :
    m1.find c = m2.find c := by
  have h2 : m2.WF := (List.Perm.nodup_iff (hp.map Prod.fst)).mp h1
  apply Option.ext
  intro b
  simp only [Option.mem_def]
  rw [find_eq_some_iff m1 h1, find_eq_some_iff m2 h2]
  exact hp.mem_iff

theorem nextAlive_congr (ls1 ls2 : LifeState) (h : ∀ c, ls1.Alive c = ls2.Alive c)
    (d : Cell) : ls1.nextAlive d = ls2.nextAlive d := by
  have hf : ls1.Alive = ls2.Alive := funext h
  simp only [LifeState.nextAlive, LifeState.aliveNeighbors, hf]

/-- The next state is decided by which cells are alive. -/
theorem find_next_congr (ls1 ls2 : LifeState) (h1 : ls1.WF) (h2 : ls2.WF)
    (h : ∀ c, ls1.Alive c = ls2.Alive c) (d : Cell) :
    ls1.Next.find d = ls2.Next.find d := by
  have hm : ∀ c, (c, true) ∈ ls1 ↔ (c, true) ∈ ls2 := by
    intro c
    rw [← alive_iff_mem ls1 h1, ← alive_iff_mem ls2 h2, h]
  have hcand : d ∈ candidates ls1 ↔ d ∈ candidates ls2 := by
    simp only [mem_candidates_iff, hm]
  rw [find_next, find_next, nextAlive_congr ls1 ls2 h]
  by_cases hd : d ∈ candidates ls2
  · simp [hd, hcand.mpr hd]
  · simp [hd, mt hcand.mp hd]

theorem alive_iff_mem_aliveCells (ls : LifeState) (hwf : ls.WF) (c : Cell) :
    ls.Alive c = true ↔ c ∈ ls.aliveCells := by
  rw [alive_iff_mem ls hwf]
  unfold LifeState.aliveCells
  simp only [List.mem_map, List.mem_filter]
  constructor
  · intro h
    exact ⟨(c, true), ⟨h, rfl⟩, rfl⟩
  · rintro ⟨⟨k, a⟩, ⟨hm, ha⟩, hk⟩
    simp only at ha hk
    subst ha hk
    exact hm

theorem alive_congr_of_find (m1 m2 : LifeState) (h : ∀ c, m1.find c = m2.find c) (c : Cell) :
    m1.Alive c = m2.Alive c := by
  unfold LifeState.Alive
  rw [h c]

theorem alive_eq_of_iff (m1 m2 : LifeState) (P : Cell → Prop)
    (h1 : ∀ c, m1.Alive c = true ↔ P c) (h2 : ∀ c, m2.Alive c = true ↔ P c) (c : Cell) :
    m1.Alive c = m2.Alive c := by
  rw [Bool.eq_iff_iff, h1, h2]

set_option maxRecDepth 100000 in
theorem blinker_alive (c : Cell) :
    blinker.Alive c = true ↔ c = ⟨0, 0⟩ ∨ c = ⟨1, 0⟩ ∨ c = ⟨2, 0⟩ := by
  rw [alive_iff_mem_aliveCells blinker (by decide)]
  have h : blinker.aliveCells = [⟨0, 0⟩, ⟨1, 0⟩, ⟨2, 0⟩] := by decide
  rw [h]
  simp

set_option maxRecDepth 100000 in
theorem blinker_next_alive (c : Cell) :
    blinker.Next.Alive c = true ↔ c = ⟨1, -1⟩ ∨ c = ⟨1, 0⟩ ∨ c = ⟨1, 1⟩ := by
  rw [alive_iff_mem_aliveCells blinker.Next (wf_next blinker)]
  have h : blinker.Next.aliveCells = [⟨1, -1⟩, ⟨1, 0⟩, ⟨1, 1⟩] := by decide
  rw [h]
  simp

set_option maxRecDepth 100000 in
theorem blinker_next_next_alive (c : Cell) :
    blinker.Next.Next.Alive c = true ↔ c = ⟨0, 0⟩ ∨ c = ⟨1, 0⟩ ∨ c = ⟨2, 0⟩ := by
  rw [alive_iff_mem_aliveCells blinker.Next.Next (wf_next blinker.Next)]
  have h : blinker.Next.Next.aliveCells = [⟨0, 0⟩, ⟨1, 0⟩, ⟨2, 0⟩] := by decide
  rw [h]
  simp

/-! ## The 2x2 block -/

theorem mem_blockCells (x y u v : Int) :
    (⟨u, v⟩ : Cell) ∈ blockCells x y
      ↔ (u = x ∨ u = wrapInt (x + 1)) ∧ (v = y ∨ v = wrapInt (y + 1)) := by
  simp only [blockCells, List.mem_cons, List.mem_singleton, Cell.mk.injEq, List.not_mem_nil,
    or_false]
  tauto

/-- Which of `u - 1`, `u`, `u + 1` lie in the pair `x`, `x + 1`. -/
theorem block_pattern (x u : Int) (hx1 : -(2 ^ 63) ≤ x) (hx2 : x < 2 ^ 63)
    (hu1 : -(2 ^ 63) ≤ u) (hu2 : u < 2 ^ 63) :
    (¬ (wrapInt (u + -1) = x ∨ wrapInt (u + -1) = wrapInt (x + 1))
        ∧ ¬ (u = x ∨ u = wrapInt (x + 1))
        ∧ ¬ (wrapInt (u + 1) = x ∨ wrapInt (u + 1) = wrapInt (x + 1)))
      ∨ (¬ (wrapInt (u + -1) = x ∨ wrapInt (u + -1) = wrapInt (x + 1))
        ∧ ¬ (u = x ∨ u = wrapInt (x + 1))
        ∧ (wrapInt (u + 1) = x ∨ wrapInt (u + 1) = wrapInt (x + 1)))
      ∨ (¬ (wrapInt (u + -1) = x ∨ wrapInt (u + -1) = wrapInt (x + 1))
        ∧ (u = x ∨ u = wrapInt (x + 1))
        ∧ (wrapInt (u + 1) = x ∨ wrapInt (u + 1) = wrapInt (x + 1)))
      ∨ ((wrapInt (u + -1) = x ∨ wrapInt (u + -1) = wrapInt (x + 1))
        ∧ (u = x ∨ u = wrapInt (x + 1))
        ∧ ¬ (wrapInt (u + 1) = x ∨ wrapInt (u + 1) = wrapInt (x + 1)))
      ∨ ((wrapInt (u + -1) = x ∨ wrapInt (u + -1) = wrapInt (x + 1))
        ∧ ¬ (u = x ∨ u = wrapInt (x + 1))
        ∧ ¬ (wrapInt (u + 1) = x ∨ wrapInt (u + 1) = wrapInt (x + 1))) := by
  unfold wrapInt
  omega

theorem block_nextAlive (ls : LifeState) (x y : Int) (hxy : (Cell.mk x y).InRange)
    (h : ∀ d, ls.Alive d = true ↔ d ∈ blockCells x y) (c : Cell) (hc : c.InRange) :
    ls.nextAlive c = true ↔ c ∈ blockCells x y := by
  obtain ⟨u, v⟩ := c
  obtain ⟨hx1, hx2, hy1, hy2⟩ := hxy
  obtain ⟨hu1, hu2, hv1, hv2⟩ := hc
  simp only at hx1 hx2 hy1 hy2 hu1 hu2 hv1 hv2
  have hA : ∀ p q : Int, ls.Alive ⟨p, q⟩
      = (decide (p = x ∨ p = wrapInt (x + 1)) && decide (q = y ∨ q = wrapInt (y + 1))) := by
    intro p q
    rw [Bool.eq_iff_iff, h, mem_blockCells]
    simp
  have hwu : wrapInt u = u := wrapInt_of_inRange u hu1 hu2
  have hwv : wrapInt v = v := wrapInt_of_inRange v hv1 hv2
  rw [nextAlive_iff, mem_blockCells]
  unfold LifeState.aliveNeighbors
  rw [← List.countP_eq_length_filter]
  simp only [Cell.neighbors, neighborOffsets, Cell.shift, List.map_cons, List.map_nil,
    List.countP_cons, List.countP_nil, hA, add_zero, hwu, hwv]
  rcases block_pattern x u hx1 hx2 hu1 hu2 with
    ⟨a1, a2, a3⟩ | ⟨a1, a2, a3⟩ | ⟨a1, a2, a3⟩ | ⟨a1, a2, a3⟩ | ⟨a1, a2, a3⟩ <;>
  rcases block_pattern y v hy1 hy2 hv1 hv2 with
    ⟨b1, b2, b3⟩ | ⟨b1, b2, b3⟩ | ⟨b1, b2, b3⟩ | ⟨b1, b2, b3⟩ | ⟨b1, b2, b3⟩ <;>
  simp only [a1, a2, a3, b1, b2, b3, decide_True, decide_False, Bool.and_self, Bool.and_true,
    Bool.and_false, Bool.false_and, Bool.true_and, if_true, if_false, Bool.false_eq_true,
    and_self, and_true, and_false, false_and, true_and, or_false, false_or, Nat.zero_add,
    Nat.add_zero, Nat.reduceAdd, Nat.reduceEqDiff, OfNat.ofNat_ne_zero, OfNat.zero_ne_ofNat,
    OfNat.ofNat_ne_one, OfNat.one_ne_ofNat, Nat.succ_ne_self, one_ne_zero, zero_ne_one]

theorem blockCells_inRange (x y : Int) (hxy : (Cell.mk x y).InRange) (d : Cell)
    (hd : d ∈ blockCells x y) : d.InRange := by
  obtain ⟨p, q⟩ := d
  obtain ⟨hx1, hx2, hy1, hy2⟩ := hxy
  have hwx1 := wrapInt_lower (x + 1)
  have hwx2 := wrapInt_upper (x + 1)
  have hwy1 := wrapInt_lower (y + 1)
  have hwy2 := wrapInt_upper (y + 1)
  rw [mem_blockCells] at hd
  obtain ⟨hp, hq⟩ := hd
  refine ⟨?_, ?_, ?_, ?_⟩
  · rcases hp with rfl | rfl <;> assumption
  · rcases hp with rfl | rfl <;> assumption
  · rcases hq with rfl | rfl <;> assumption
  · rcases hq with rfl | rfl <;> assumption

theorem block_step (x y : Int) (hxy : (Cell.mk x y).InRange) (ls : LifeState) (hwf : ls.WF)
    (h : ∀ d, ls.Alive d = true ↔ d ∈ blockCells x y) (c : Cell) :
    ls.Next.Alive c = true ↔ c ∈ blockCells x y := by
  rw [next_alive_eq, Bool.and_eq_true, decide_eq_true_eq]
  constructor
  · rintro ⟨hcand, hrule⟩
    obtain ⟨d, hd, hcd⟩ := (mem_candidates_iff ls c).mp hcand
    have hdr : d.InRange :=
      blockCells_inRange x y hxy d ((h d).mp ((alive_iff_mem ls hwf d).mpr hd))
    have hcr : c.InRange := by
      rcases hcd with rfl | hn
      · exact hdr
      · exact inRange_of_mem_neighbors d c hn
    exact (block_nextAlive ls x y hxy h c hcr).mp hrule
  · intro hc
    have hal : ls.Alive c = true := (h c).mpr hc
    refine ⟨(mem_candidates_iff ls c).mpr ⟨c, mem_of_alive ls c hal, Or.inl rfl⟩, ?_⟩
    exact (block_nextAlive ls x y hxy h c (blockCells_inRange x y hxy c hc)).mpr hc

theorem alive_of_all_true (ls : LifeState) (hall : ∀ e ∈ ls, e.2 = true) (d : Cell)
    (hd : d ∈ ls.map Prod.fst) : ls.Alive d = true := by
  cases hf : ls.find d with
  | none => exact absurd hd ((find_eq_none_iff ls d).mp hf)
  | some b =>
    have hb := hall _ (mem_of_find_eq_some ls d b hf)
    simp only at hb
    rw [alive_of_find ls d b hf, hb]

theorem block_alive (x y : Int) (d : Cell) :
    (block x y).Alive d = true ↔ d ∈ blockCells x y := by
  constructor
  · intro h
    have hm := mem_of_alive _ d h
    obtain ⟨c, hc, he⟩ := List.mem_map.mp hm
    simp only [Prod.mk.injEq, and_true] at he
    exact he ▸ hc
  · intro h
    apply alive_of_all_true
    · intro e he
      obtain ⟨c, -, rfl⟩ := List.mem_map.mp he
      rfl
    · simp only [block, List.map_map]
      exact List.mem_map.mpr ⟨d, h, rfl⟩

/-! ## Sizes -/

theorem calcAll_of_nodup (ls : LifeState) (cells : List Cell) (ns : LifeState)
    (hnew : ∀ d ∈ cells, ns.find d = none) (hnd : cells.Nodup) :
    calcAll ls cells ns = ns ++ cells.map (fun d => (d, ls.nextAlive d)) := by
  induction cells generalizing ns with
  | nil => simp [calcAll]
  | cons d rest ih =>
    have hd : ns.find d = none := hnew d (List.mem_cons_self _ _)
    have hstep : calcAll ls (d :: rest) ns = calcAll ls rest (calcNextCellState ls d ns) := rfl
    have hcalc : calcNextCellState ls d ns = ns.assign d (ls.nextAlive d) := by
      rw [calcNextCellState_eq, hd]
      rfl
    obtain ⟨hnot, hrest⟩ := List.nodup_cons.mp hnd
    rw [hstep, hcalc, ih _ ?_ hrest, set_of_find_none ns d _ hd]
    · simp
    · intro e he
      rw [find_set]
      have hne : ¬ d = e := fun h => hnot (h ▸ he)
      simp only [hne, if_false]
      exact hnew e (List.mem_cons_of_mem _ he)

theorem self_cons_neighbors_nodup (c : Cell) : (c :: c.neighbors).Nodup :=
  List.nodup_cons.mpr ⟨not_mem_neighbors_self c, neighbors_nodup c⟩

theorem aliveNeighbors_single (c d : Cell) :
    LifeState.aliveNeighbors [(c, true)] d ≤ 1 := by
  unfold LifeState.aliveNeighbors
  have hA : LifeState.Alive [(c, true)] = fun e => e == c := by
    funext e
    by_cases h : c = e
    · subst h
      simp [LifeState.Alive, LifeState.find]
    · have h2 : ¬ e = c := fun h3 => h h3.symm
      simp [LifeState.Alive, LifeState.find, h, h2]
  rw [hA, ← List.countP_eq_length_filter]
  exact List.nodup_iff_count_le_one.mp (neighbors_nodup d) c

theorem nextAlive_single (c d : Cell) : LifeState.nextAlive [(c, true)] d = false := by
  have h := aliveNeighbors_single c d
  have h3 : LifeState.aliveNeighbors [(c, true)] d ≠ 3 := by omega
  have h2 : LifeState.aliveNeighbors [(c, true)] d ≠ 2 := by omega
  simp [LifeState.nextAlive, h2, h3]

theorem mem_keys_next_of_alive (ls : LifeState) (c : Cell) (h : (c, true) ∈ ls) :
    c ∈ ls.Next.map Prod.fst := by
  by_contra hn
  have hf := (find_eq_none_iff ls.Next c).mpr hn
  rw [find_next] at hf
  have hc : c ∈ candidates ls := (mem_candidates_iff ls c).mpr ⟨c, h, Or.inl rfl⟩
  simp [hc] at hf

theorem aliveCells_nodup (ls : LifeState) (hwf : ls.WF) : ls.aliveCells.Nodup := by
  unfold LifeState.aliveCells
  exact List.Nodup.sublist (List.Sublist.map _ (List.filter_sublist _)) hwf

/-! ## The claims -/

/-- C1: for every state and every cell (a pair of Go ints), the cell is alive in
the next state if and only if `n = 3`, or `n = 2` and the cell is alive now,
where `n` is the number of its eight neighbours alive now; so with `n = 3` it
is alive next whatever it is now, with `n = 2` it keeps its status, and with
any other `n` it is dead next. -/
theorem next_alive_iff_rule (ls : LifeState) (c : Cell) (hc : c.InRange) :
    (ls.Next.Alive c = true ↔
        ls.aliveNeighbors c = 3 ∨ (ls.aliveNeighbors c = 2 ∧ ls.Alive c = true))
      ∧ (ls.aliveNeighbors c = 3 → ls.Next.Alive c = true)
      ∧ (ls.aliveNeighbors c = 2 → ls.Next.Alive c = ls.Alive c)
      ∧ (ls.aliveNeighbors c ≠ 2 → ls.aliveNeighbors c ≠ 3 → ls.Next.Alive c = false) := by
  have key : ls.Next.Alive c = ls.nextAlive c := by
    rw [next_alive_eq]
    by_cases h : c ∈ candidates ls
    · simp [h]
    · have h0 := aliveNeighbors_eq_zero_of_not_mem ls c hc h
      simp [h, LifeState.nextAlive, h0]
  rw [key]
  refine ⟨nextAlive_iff ls c, ?_, ?_, ?_⟩
  · intro h3
    simp [LifeState.nextAlive, h3]
  · intro h2
    simp [LifeState.nextAlive, h2]
  · intro h2 h3
    simp [LifeState.nextAlive, h2, h3]

theorem next_alive_iff_rule_witness :
    (Cell.mk 1 1).InRange ∧
      (blinker.Next.Alive ⟨1, 1⟩ = true ↔
        blinker.aliveNeighbors ⟨1, 1⟩ = 3
          ∨ (blinker.aliveNeighbors ⟨1, 1⟩ = 2 ∧ blinker.Alive ⟨1, 1⟩ = true)) :=
  ⟨by decide, (next_alive_iff_rule blinker ⟨1, 1⟩ (by decide)).1⟩

/-- C2: every cell with an entry in the next state is alive in the current
state or is one of the eight neighbours of a cell alive in the current state. -/
theorem next_entry_in_scope (ls : LifeState) (hwf : ls.WF) (c : Cell) (b : Bool)
    (h : (c, b) ∈ ls.Next) :
    ls.Alive c = true ∨ ∃ d, ls.Alive d = true ∧ c ∈ d.neighbors := by
  have hf : ls.Next.find c = some b := (find_eq_some_iff ls.Next (wf_next ls) c b).mpr h
  rw [find_next] at hf
  by_cases hc : c ∈ candidates ls
  · obtain ⟨d, hd, hcd⟩ := (mem_candidates_iff ls c).mp hc
    have hal : ls.Alive d = true := (alive_iff_mem ls hwf d).mpr hd
    rcases hcd with rfl | hn
    · exact Or.inl hal
    · exact Or.inr ⟨d, hal, hn⟩
  · simp [hc] at hf

set_option maxRecDepth 100000 in
theorem next_entry_in_scope_witness :
    blinker.WF ∧ ((Cell.mk 3 1, false) ∈ blinker.Next) ∧
      (blinker.Alive ⟨3, 1⟩ = true ∨ ∃ d, blinker.Alive d = true ∧ Cell.mk 3 1 ∈ d.neighbors) :=
  ⟨by decide, by decide, next_entry_in_scope blinker (by decide) ⟨3, 1⟩ false (by decide)⟩

/-- C3: a state with no alive cell, be it the empty mapping or a mapping whose
entries are all false, has the empty mapping as its next state, of size 0. -/
theorem next_of_no_alive (ls : LifeState) (hwf : ls.WF) (h : ∀ c, ls.Alive c = false) :
    ls.Next = [] ∧ ls.Next.Size = 0 := by
  have hc : candidates ls = [] := by
    unfold candidates
    rw [List.flatMap_eq_nil_iff]
    rintro ⟨c, a⟩ he
    cases a
    · rfl
    · have := (alive_iff_mem ls hwf c).mpr he
      rw [h c] at this
      exact absurd this (by decide)
  have hn : ls.Next = [] := by
    unfold LifeState.Next
    rw [nextOver_eq, hc]
    rfl
  rw [hn]
  exact ⟨rfl, rfl⟩

theorem next_of_no_alive_witness :
    LifeState.WF [(⟨0, 0⟩, false), (⟨5, -2⟩, false)]
      ∧ (LifeState.Next [(⟨0, 0⟩, false), (⟨5, -2⟩, false)] = []
        ∧ (LifeState.Next [(⟨0, 0⟩, false), (⟨5, -2⟩, false)]).Size = 0) :=
  ⟨by decide, next_of_no_alive [(⟨0, 0⟩, false), (⟨5, -2⟩, false)] (by decide) (by
    intro c
    by_cases h1 : Cell.mk 0 0 = c <;> by_cases h2 : Cell.mk 5 (-2) = c <;>
      simp [LifeState.Alive, LifeState.find, h1, h2])⟩

/-- C4: the result of `Next` does not depend on the order in which the entries
of the map are visited: for two orderings of the same entries the two results
are the same mapping (the same entries up to order, so the same size, and the
same lookup for every cell), and so have the same alive cells. -/
theorem next_order_independent (ls1 ls2 : LifeState) (hwf : ls1.WF) (hp : ls1.Perm ls2) :
    ls1.Next.Perm ls2.Next
      ∧ ls1.Next.Size = ls2.Next.Size
      ∧ (∀ c, ls1.Next.find c = ls2.Next.find c)
      ∧ (∀ c, ls1.Next.Alive c = ls2.Next.Alive c) := by
  have hwf2 : ls2.WF := (List.Perm.nodup_iff (hp.map Prod.fst)).mp hwf
  have hal : ∀ c, ls1.Alive c = ls2.Alive c := by
    intro c
    unfold LifeState.Alive
    rw [find_eq_of_perm ls1 ls2 hwf hp c]
  have hfind : ∀ c, ls1.Next.find c = ls2.Next.find c := find_next_congr ls1 ls2 hwf hwf2 hal
  have hperm : ls1.Next.Perm ls2.Next :=
    perm_of_find_eq ls1.Next ls2.Next (wf_next ls1) (wf_next ls2) hfind
  refine ⟨hperm, hperm.length_eq, hfind, ?_⟩
  intro c
  unfold LifeState.Alive
  rw [hfind c]

set_option maxRecDepth 100000 in
theorem next_order_independent_witness :
    blinker.WF ∧ blinker.Perm blinker.reverse
      ∧ blinker.Next ≠ LifeState.Next blinker.reverse
      ∧ blinker.Next.Perm (LifeState.Next blinker.reverse) :=
  ⟨by decide, List.reverse_perm blinker |>.symm, by decide,
    (next_order_independent blinker blinker.reverse (by decide)
      (List.reverse_perm blinker).symm).1⟩

/-- C5: from a state whose alive cells are exactly (0,0), (1,0), (2,0), the
alive cells of the next state are exactly (1,-1), (1,0), (1,1), and the alive
cells of the state after that are exactly (0,0), (1,0), (2,0) again. -/
theorem blinker_period_two (ls : LifeState) (hwf : ls.WF)
    (h : ∀ c, ls.Alive c = true ↔ c = ⟨0, 0⟩ ∨ c = ⟨1, 0⟩ ∨ c = ⟨2, 0⟩) :
    (∀ c, ls.Next.Alive c = true ↔ c = ⟨1, -1⟩ ∨ c = ⟨1, 0⟩ ∨ c = ⟨1, 1⟩)
      ∧ (∀ c, ls.Next.Next.Alive c = true ↔ c = ⟨0, 0⟩ ∨ c = ⟨1, 0⟩ ∨ c = ⟨2, 0⟩) := by
  have hb : blinker.WF := by decide
  have hal : ∀ c, ls.Alive c = blinker.Alive c :=
    alive_eq_of_iff ls blinker _ h blinker_alive
  have hf1 : ∀ c, ls.Next.find c = blinker.Next.find c := find_next_congr ls blinker hwf hb hal
  have hal1 : ∀ c, ls.Next.Alive c = blinker.Next.Alive c :=
    alive_congr_of_find _ _ hf1
  have hf2 : ∀ c, ls.Next.Next.find c = blinker.Next.Next.find c :=
    find_next_congr ls.Next blinker.Next (wf_next ls) (wf_next blinker) hal1
  have hal2 : ∀ c, ls.Next.Next.Alive c = blinker.Next.Next.Alive c :=
    alive_congr_of_find _ _ hf2
  constructor
  · intro c
    rw [hal1 c]
    exact blinker_next_alive c
  · intro c
    rw [hal2 c]
    exact blinker_next_next_alive c

set_option maxRecDepth 100000 in
theorem blinker_period_two_witness :
    blinker.WF
      ∧ blinker.Next.aliveCells = [⟨1, -1⟩, ⟨1, 0⟩, ⟨1, 1⟩]
      ∧ ((∀ c, blinker.Next.Alive c = true ↔ c = ⟨1, -1⟩ ∨ c = ⟨1, 0⟩ ∨ c = ⟨1, 1⟩)
        ∧ (∀ c, blinker.Next.Next.Alive c = true ↔ c = ⟨0, 0⟩ ∨ c = ⟨1, 0⟩ ∨ c = ⟨2, 0⟩)) :=
  ⟨by decide, by decide, blinker_period_two blinker (by decide) blinker_alive⟩

/-- C6: for every position `(x, y)` (a pair of Go ints) and every number of
generations `k`, applying `Next` `k` times to a state whose alive cells are
exactly the block `(x, y)`, `(x+1, y)`, `(x, y+1)`, `(x+1, y+1)` gives a state
whose alive cells are exactly those four cells. -/
theorem block_still_life (x y : Int) (hxy : (Cell.mk x y).InRange) (k : Nat)
    (ls : LifeState) (hwf : ls.WF) (h : ∀ d, ls.Alive d = true ↔ d ∈ blockCells x y) :
    ∀ c, (LifeState.iterNext k ls).Alive c = true ↔ c ∈ blockCells x y := by
  induction k generalizing ls with
  | zero => exact h
  | succ k ih =>
    exact ih ls.Next (wf_next ls) (block_step x y hxy ls hwf h)

theorem block_still_life_witness :
    (Cell.mk 0 0).InRange ∧ (block 0 0).WF
      ∧ ∀ c, (LifeState.iterNext 5 (block 0 0)).Alive c = true
          ↔ c ∈ [Cell.mk 0 0, Cell.mk 1 0, Cell.mk 0 1, Cell.mk 1 1] :=
  ⟨by decide, by decide,
    block_still_life 0 0 (by decide) 5 (block 0 0) (by decide) (block_alive 0 0)⟩

/-- C7: for every cell `c`, the next state of the state whose only entry is
`c`, alive, has no alive cell and has size 9: its entries are `c` and the eight
neighbours of `c`, each recorded false. -/
theorem next_of_single_cell (c : Cell) :
    LifeState.Next [(c, true)] = (c, false) :: c.neighbors.map (fun d => (d, false))
      ∧ (LifeState.Next [(c, true)]).Size = 9
      ∧ (LifeState.Next [(c, true)]).WF
      ∧ (LifeState.Next [(c, true)]).aliveCells = []
      ∧ ∀ d, (LifeState.Next [(c, true)]).Alive d = false := by
  have hcand : candidates [(c, true)] = c :: c.neighbors := by
    simp [candidates]
  have hnext : LifeState.Next [(c, true)]
      = (c, false) :: c.neighbors.map (fun d => (d, false)) := by
    unfold LifeState.Next
    rw [nextOver_eq, hcand,
      calcAll_of_nodup _ _ [] (fun d _ => rfl) (self_cons_neighbors_nodup c)]
    simp only [List.nil_append, List.map_cons, nextAlive_single]
  have hall : ∀ d, (LifeState.Next [(c, true)]).Alive d = false := by
    intro d
    rw [next_alive_eq, nextAlive_single]
    simp
  refine ⟨hnext, ?_, wf_next _, ?_, hall⟩
  · rw [hnext]
    simp [LifeState.Size, neighbors_length]
  · rw [hnext]
    simp [LifeState.aliveCells]

set_option maxRecDepth 100000 in
/-- C8, as the claim states it, fails: the state reached from a single alive
cell after one generation has size 9, and its next state has size 0. -/
theorem size_can_decrease :
    lonely.Next.WF ∧ lonely.Next.Size = 9 ∧ lonely.Next.Next.Size = 0
      ∧ ¬ (lonely.Next.Next.Size ≥ lonely.Next.Size) := by
  decide

/-- C8, amended: the size of the next state is at least the number of alive
cells of the current state, so it is at least the size of the current state
when every entry of the current state is alive. -/
theorem size_next_ge_alive (ls : LifeState) (hwf : ls.WF) :
    ls.aliveCells.length ≤ ls.Next.Size
      ∧ ((∀ e ∈ ls, e.2 = true) → ls.Size ≤ ls.Next.Size) := by
  have hsub : ls.aliveCells ⊆ ls.Next.map Prod.fst := by
    intro c hc
    exact mem_keys_next_of_alive ls c
      ((alive_iff_mem ls hwf c).mp ((alive_iff_mem_aliveCells ls hwf c).mpr hc))
  have hle : ls.aliveCells.length ≤ ls.Next.Size := by
    have := ((aliveCells_nodup ls hwf).subperm hsub).length_le
    simpa [LifeState.Size] using this
  refine ⟨hle, ?_⟩
  intro hall
  have hf : ls.filter Prod.snd = ls := List.filter_eq_self.mpr hall
  have hlen : ls.aliveCells.length = ls.Size := by
    simp [LifeState.aliveCells, LifeState.Size, hf]
  omega

set_option maxRecDepth 100000 in
theorem size_next_ge_alive_witness :
    blinker.WF ∧ blinker.aliveCells.length = 3 ∧ blinker.Next.Size = 15
      ∧ (blinker.aliveCells.length ≤ blinker.Next.Size
        ∧ ((∀ e ∈ blinker, e.2 = true) → blinker.Size ≤ blinker.Next.Size)) :=
  ⟨by decide, by decide, by decide, size_next_ge_alive blinker (by decide)⟩

/-- C9: for every cell `(x, y)`, `ForEachNeighbor` calls `f` exactly 8 times,
on the cells `(x+dx, y+dy)` (Go's addition) in the fixed order of offsets
(-1,-1), (-1,0), (-1,1), (0,-1), (0,1), (1,-1), (1,0), (1,1): the run is the
chain of these 8 calls, the log of the calls is this list whatever was logged
before, the 8 cells are pairwise different and none is `(x, y)`; and where
`x` and `y` are not at an end of the range of `int` the sums are the
mathematical ones. -/
theorem forEachNeighbor_calls (x y : Int) :
    (∀ (σ : Type) (f : Cell → σ → σ) (s : σ),
        (Cell.mk x y).ForEachNeighbor f s =
          f ⟨wrapInt (x + 1), wrapInt (y + 1)⟩ (f ⟨wrapInt (x + 1), wrapInt (y + 0)⟩
          (f ⟨wrapInt (x + 1), wrapInt (y + -1)⟩ (f ⟨wrapInt (x + 0), wrapInt (y + 1)⟩
          (f ⟨wrapInt (x + 0), wrapInt (y + -1)⟩ (f ⟨wrapInt (x + -1), wrapInt (y + 1)⟩
          (f ⟨wrapInt (x + -1), wrapInt (y + 0)⟩ (f ⟨wrapInt (x + -1), wrapInt (y + -1)⟩ s))))))))
      ∧ (∀ log : List Cell,
        (Cell.mk x y).ForEachNeighbor (fun c log => log ++ [c]) log =
          log ++ [⟨wrapInt (x + -1), wrapInt (y + -1)⟩, ⟨wrapInt (x + -1), wrapInt (y + 0)⟩,
            ⟨wrapInt (x + -1), wrapInt (y + 1)⟩, ⟨wrapInt (x + 0), wrapInt (y + -1)⟩,
            ⟨wrapInt (x + 0), wrapInt (y + 1)⟩, ⟨wrapInt (x + 1), wrapInt (y + -1)⟩,
            ⟨wrapInt (x + 1), wrapInt (y + 0)⟩, ⟨wrapInt (x + 1), wrapInt (y + 1)⟩])
      ∧ ((Cell.mk x y).ForEachNeighbor (fun c log => log ++ [c]) []).length = 8
      ∧ ((Cell.mk x y).ForEachNeighbor (fun c log => log ++ [c]) []).Nodup
      ∧ Cell.mk x y ∉ (Cell.mk x y).ForEachNeighbor (fun c log => log ++ [c]) []
      ∧ (-(2 ^ 63) < x ∧ x < 2 ^ 63 - 1 ∧ -(2 ^ 63) < y ∧ y < 2 ^ 63 - 1 →
        (Cell.mk x y).ForEachNeighbor (fun c log => log ++ [c]) [] =
          [⟨x - 1, y - 1⟩, ⟨x - 1, y⟩, ⟨x - 1, y + 1⟩, ⟨x, y - 1⟩,
            ⟨x, y + 1⟩, ⟨x + 1, y - 1⟩, ⟨x + 1, y⟩, ⟨x + 1, y + 1⟩]) := by
  have hlog : (Cell.mk x y).ForEachNeighbor (fun c log => log ++ [c]) []
      = (Cell.mk x y).neighbors := by
    rw [forEachNeighbor_eq_foldl]
    simp [Cell.neighbors, neighborOffsets]
  refine ⟨fun σ f s => rfl, ?_, ?_, ?_, ?_, ?_⟩
  · intro log
    rw [forEachNeighbor_eq_foldl]
    simp [Cell.neighbors, neighborOffsets, Cell.shift]
  · rw [hlog]
    exact neighbors_length _
  · rw [hlog]
    exact neighbors_nodup _
  · rw [hlog]
    exact not_mem_neighbors_self _
  · rintro ⟨h1, h2, h3, h4⟩
    rw [hlog]
    simp only [Cell.neighbors, neighborOffsets, Cell.shift, List.map_cons, List.map_nil]
    have e1 : wrapInt (x + -1) = x - 1 := by unfold wrapInt; omega
    have e2 : wrapInt (x + 0) = x := by unfold wrapInt; omega
    have e3 : wrapInt (x + 1) = x + 1 := by unfold wrapInt; omega
    have e4 : wrapInt (y + -1) = y - 1 := by unfold wrapInt; omega
    have e5 : wrapInt (y + 0) = y := by unfold wrapInt; omega
    have e6 : wrapInt (y + 1) = y + 1 := by unfold wrapInt; omega
    rw [e1, e2, e3, e4, e5, e6]

theorem forEachNeighbor_calls_witness :
    (Cell.mk 4 (-7)).ForEachNeighbor (fun c log => log ++ [c]) [] =
      [⟨3, -8⟩, ⟨3, -7⟩, ⟨3, -6⟩, ⟨4, -8⟩, ⟨4, -6⟩, ⟨5, -8⟩, ⟨5, -7⟩, ⟨5, -6⟩] :=
  (forEachNeighbor_calls 4 (-7)).2.2.2.2.2 (by decide)

/-- C10, as the claim states it, fails: on the nil map, the zero value of the
type `LifeState`, `Set` panics, so there is no state after the call. -/
theorem set_on_nil_map_panics :
    LifeState.Set none ⟨0, 0⟩ true = Except.error Panic.assignmentToEntryInNilMap
      ∧ ¬ ∃ ls, LifeState.Set none ⟨0, 0⟩ true = Except.ok ls := by
  refine ⟨rfl, ?_⟩
  rintro ⟨ls, h⟩
  exact absurd h (by simp [LifeState.Set])

/-- C10, amended: for every state that is a map made by `make`, every cell `c`
and every boolean `a`, `Set(c, a)` returns and afterwards `Alive(c)` is `a`,
`Alive(d)` is unchanged for every cell `d` other than `c`, and `Size` is one
more than before if `c` had no entry and is unchanged otherwise, whatever `a`
is; on the nil map `Set` panics. -/
theorem set_effect (ls : LifeState) (c : Cell) (a : Bool) :
    LifeState.Set (some ls) c a = Except.ok (ls.assign c a)
      ∧ (ls.assign c a).Alive c = a
      ∧ (∀ d, d ≠ c → (ls.assign c a).Alive d = ls.Alive d)
      ∧ (ls.assign c a).Size = (if ls.find c = none then ls.Size + 1 else ls.Size)
      ∧ (ls.assign c false).Size = (ls.assign c true).Size
      ∧ LifeState.Set none c a = Except.error Panic.assignmentToEntryInNilMap := by
  have hsize : ∀ b,
      (ls.assign c b).Size = (if ls.find c = none then ls.Size + 1 else ls.Size) := by
    intro b
    cases hf : ls.find c with
    | none =>
      rw [set_of_find_none ls c b hf]
      simp [LifeState.Size]
    | some v =>
      have hk := keys_set_of_find_some ls c b (by simp [hf])
      have hl := congrArg List.length hk
      simpa [LifeState.Size] using hl
  refine ⟨rfl, ?_, ?_, hsize a, ?_, rfl⟩
  · simp [LifeState.Alive, find_set]
  · intro d hd
    have hne : ¬ c = d := fun h => hd h.symm
    simp [LifeState.Alive, find_set, hne]
  · rw [hsize false, hsize true]

/-- C11: `Alive` is a total function of the state and the cell, for any integer
coordinates: it returns true exactly when the state has an entry for the cell
whose value is true, and false when the cell has no entry; being a read of the
map, it yields a value and no new state, so the entries and `Size` are as
before. -/
theorem alive_total (ls : LifeState) (hwf : ls.WF) (c : Cell) :
    (ls.Alive c = true ↔ (c, true) ∈ ls)
      ∧ (ls.Alive c = true ↔ ls.find c = some true)
      ∧ (c ∉ ls.map Prod.fst → ls.Alive c = false)
      ∧ (ls.Alive c = false ↔ (c ∉ ls.map Prod.fst ∨ (c, false) ∈ ls)) := by
  have h2 : ls.Alive c = true ↔ ls.find c = some true := by
    unfold LifeState.Alive
    cases ls.find c <;> simp
  refine ⟨alive_iff_mem ls hwf c, h2, ?_, ?_⟩
  · intro hc
    exact alive_of_find_none ls c ((find_eq_none_iff ls c).mpr hc)
  · rw [← find_eq_none_iff, ← find_eq_some_iff ls hwf]
    unfold LifeState.Alive
    cases ls.find c <;> simp

theorem alive_total_witness :
    LifeState.WF [(⟨-3, 7⟩, true), (⟨0, -1⟩, false)]
      ∧ LifeState.Alive [(⟨-3, 7⟩, true), (⟨0, -1⟩, false)] ⟨-3, 7⟩ = true
      ∧ LifeState.Alive [(⟨-3, 7⟩, true), (⟨0, -1⟩, false)] ⟨0, -1⟩ = false
      ∧ (Cell.mk (-9) (-9) ∉ List.map Prod.fst [(Cell.mk (-3) 7, true), (Cell.mk 0 (-1), false)]
        → LifeState.Alive [(⟨-3, 7⟩, true), (⟨0, -1⟩, false)] ⟨-9, -9⟩ = false) :=
  ⟨by decide, by decide, by decide,
    (alive_total [(⟨-3, 7⟩, true), (⟨0, -1⟩, false)] (by decide) ⟨-9, -9⟩).2.2.1⟩

/-- C14: every cell alive in `ls` and every neighbour of a cell alive in `ls`
has an entry in `Next(ls)`, whose value is the rule value, false included; so
the cells with an entry in `Next(ls)` are exactly the alive cells of `ls` and
their neighbours. -/
theorem next_keys_exact (ls : LifeState) (hwf : ls.WF) (c : Cell) :
    ((ls.Alive c = true ∨ ∃ d, ls.Alive d = true ∧ c ∈ d.neighbors)
        → (c, ls.nextAlive c) ∈ ls.Next)
      ∧ (c ∈ ls.Next.map Prod.fst
        ↔ (ls.Alive c = true ∨ ∃ d, ls.Alive d = true ∧ c ∈ d.neighbors)) := by
  have hcand : c ∈ candidates ls
      ↔ (ls.Alive c = true ∨ ∃ d, ls.Alive d = true ∧ c ∈ d.neighbors) := by
    rw [mem_candidates_iff]
    constructor
    · rintro ⟨d, hd, hcd⟩
      have hal : ls.Alive d = true := (alive_iff_mem ls hwf d).mpr hd
      rcases hcd with rfl | hn
      · exact Or.inl hal
      · exact Or.inr ⟨d, hal, hn⟩
    · rintro (hal | ⟨d, hal, hn⟩)
      · exact ⟨c, mem_of_alive ls c hal, Or.inl rfl⟩
      · exact ⟨d, mem_of_alive ls d hal, Or.inr hn⟩
  constructor
  · intro h
    rw [← find_eq_some_iff ls.Next (wf_next ls), find_next]
    simp [hcand.mpr h]
  · rw [← hcand]
    constructor
    · intro hk
      by_contra hn
      have hf : ls.Next.find c = none := by
        rw [find_next]
        simp [hn]
      exact (find_eq_none_iff ls.Next c).mp hf hk
    · intro hc
      by_contra hk
      have hf := (find_eq_none_iff ls.Next c).mpr hk
      rw [find_next] at hf
      simp [hc] at hf

set_option maxRecDepth 100000 in
theorem next_keys_exact_witness :
    blinker.WF ∧ blinker.nextAlive ⟨3, 1⟩ = false ∧ Cell.mk 3 1 ∈ (Cell.mk 2 0).neighbors
      ∧ (Cell.mk 3 1, blinker.nextAlive ⟨3, 1⟩) ∈ blinker.Next :=
  ⟨by decide, by decide, by decide,
    (next_keys_exact blinker (by decide) ⟨3, 1⟩).1
      (Or.inr ⟨⟨2, 0⟩, by decide, by decide⟩)⟩

/-- C17: `Next` depends only on which cells are alive: two states with the same
cells mapped to true, whatever their explicit false entries, have next states
that are the same mapping, with the same lookup for every cell, the same
entries up to order and the same size. -/
theorem next_depends_on_alive_only (ls1 ls2 : LifeState) (h1 : ls1.WF) (h2 : ls2.WF)
    (h : ∀ c, ls1.Alive c = true ↔ ls2.Alive c = true) :
    (∀ c, ls1.Next.find c = ls2.Next.find c)
      ∧ ls1.Next.Perm ls2.Next
      ∧ ls1.Next.Size = ls2.Next.Size := by
  have hal : ∀ c, ls1.Alive c = ls2.Alive c := by
    intro c
    rw [Bool.eq_iff_iff]
    exact h c
  have hfind := find_next_congr ls1 ls2 h1 h2 hal
  have hperm := perm_of_find_eq ls1.Next ls2.Next (wf_next ls1) (wf_next ls2) hfind
  exact ⟨hfind, hperm, hperm.length_eq⟩

set_option maxRecDepth 100000 in
theorem next_depends_on_alive_only_witness :
    blinker.WF ∧ LifeState.WF ((⟨7, 7⟩, false) :: blinker)
      ∧ (∀ c, blinker.Next.find c = (LifeState.Next ((⟨7, 7⟩, false) :: blinker)).find c) :=
  ⟨by decide, by decide,
    (next_depends_on_alive_only blinker ((⟨7, 7⟩, false) :: blinker) (by decide) (by decide)
      (fun c => by
        by_cases h : Cell.mk 7 7 = c
        · subst h
          decide
        · simp [LifeState.Alive, LifeState.find, h])).1⟩

/-! ## The log of evaluated cells -/

theorem forEachNeighbor_log (c : Cell) :
    c.ForEachNeighbor (fun c log => log ++ [c]) [] = c.neighbors := by
  rw [forEachNeighbor_eq_foldl]
  simp [Cell.neighbors, neighborOffsets]

theorem logged_fst (ls : LifeState) (c : Cell) (st : LifeState × List Cell) :
    (calcNextCellStateLogged ls c st).1 = calcNextCellState ls c st.1 := by
  unfold calcNextCellStateLogged calcNextCellState
  split <;> rfl

theorem logged_snd (ls : LifeState) (c : Cell) (st : LifeState × List Cell)
    (h : st.2 = st.1.map Prod.fst) :
    (calcNextCellStateLogged ls c st).2 = (calcNextCellStateLogged ls c st).1.map Prod.fst := by
  unfold calcNextCellStateLogged
  cases hf : st.1.find c with
  | some b => simpa [hf] using h
  | none =>
    simp only [hf, Option.isSome_none, Bool.false_eq_true, if_false]
    rw [set_of_find_none _ _ _ hf, List.map_append, h]
    rfl

theorem logged_foldl (ls : LifeState) (cells : List Cell) (st : LifeState × List Cell)
    (h : st.2 = st.1.map Prod.fst) :
    (cells.foldl (fun st c => calcNextCellStateLogged ls c st) st).1 = calcAll ls cells st.1
      ∧ (cells.foldl (fun st c => calcNextCellStateLogged ls c st) st).2
        = (cells.foldl (fun st c => calcNextCellStateLogged ls c st) st).1.map Prod.fst := by
  induction cells generalizing st with
  | nil => exact ⟨rfl, h⟩
  | cons c rest ih =>
    have := ih (calcNextCellStateLogged ls c st) (logged_snd ls c st h)
    rw [logged_fst] at this
    simp only [List.foldl_cons]
    exact ⟨this.1, this.2⟩

theorem logged_neighbors (ls : LifeState) (c : Cell) (st : LifeState × List Cell) :
    c.ForEachNeighbor (calcNextCellStateLogged ls) (calcNextCellStateLogged ls c st)
      = (c :: c.neighbors).foldl (fun st c => calcNextCellStateLogged ls c st) st := by
  rw [forEachNeighbor_eq_foldl]
  simp only [List.foldl_cons]

theorem nextLogged_loop (ls : LifeState) (order : List (Cell × Bool))
    (st : LifeState × List Cell) :
    order.foldl (fun st e =>
      if e.2 then
        e.1.ForEachNeighbor (calcNextCellStateLogged ls) (calcNextCellStateLogged ls e.1 st)
      else st) st
      = (candidates order).foldl (fun st c => calcNextCellStateLogged ls c st) st := by
  induction order generalizing st with
  | nil => rfl
  | cons e rest ih =>
    obtain ⟨c, a⟩ := e
    have hc : candidates ((c, a) :: rest)
        = (if a then c :: c.neighbors else []) ++ candidates rest := by
      simp only [candidates, List.flatMap_cons]
    rw [List.foldl_cons, ih, hc, List.foldl_append]
    cases a
    · simp only [Bool.false_eq_true, if_false, List.foldl_nil]
    · simp only [if_true, logged_neighbors]

theorem nextLogged_eq (ls : LifeState) :
    ls.NextLogged.1 = ls.Next ∧ ls.NextLogged.2 = ls.Next.map Prod.fst := by
  have h := logged_foldl ls (candidates ls) ([], []) rfl
  have e : ls.NextLogged
      = (candidates ls).foldl (fun st c => calcNextCellStateLogged ls c st) ([], []) :=
    nextLogged_loop ls ls ([], [])
  have hn : ls.Next = calcAll ls (candidates ls) [] := nextOver_eq ls ls
  rw [e, hn]
  exact ⟨h.1, h.1 ▸ h.2⟩

theorem mem_keys_next_iff (ls : LifeState) (c : Cell) :
    c ∈ ls.Next.map Prod.fst ↔ c ∈ candidates ls := by
  constructor
  · intro hk
    by_contra hn
    have hf : ls.Next.find c = none := by
      rw [find_next]
      simp [hn]
    exact (find_eq_none_iff ls.Next c).mp hf hk
  · intro hc
    by_contra hk
    have hf := (find_eq_none_iff ls.Next c).mpr hk
    rw [find_next] at hf
    simp [hc] at hf

/-- C15: in one call of `Next` each candidate cell is evaluated exactly once:
the calls of `calcNextCellState` that get past the already-calculated check
are as many as `Next(ls).Size()`, which is the number of distinct cells among
the alive cells and their neighbours; the cells they write are pairwise
different, so no entry of the output mapping is written twice. -/
theorem evaluated_once (ls : LifeState) :
    ls.NextLogged.1 = ls.Next
      ∧ ls.NextLogged.2.length = ls.Next.Size
      ∧ ls.NextLogged.2.Nodup
      ∧ (∀ c, c ∈ ls.NextLogged.2 ↔ c ∈ candidates ls)
      ∧ ls.NextLogged.2.length = (candidates ls).dedup.length := by
  obtain ⟨h1, h2⟩ := nextLogged_eq ls
  have hnd : ls.NextLogged.2.Nodup := by
    rw [h2]
    exact wf_next ls
  have hmem : ∀ c, c ∈ ls.NextLogged.2 ↔ c ∈ candidates ls := by
    intro c
    rw [h2]
    exact mem_keys_next_iff ls c
  refine ⟨h1, ?_, hnd, hmem, ?_⟩
  · rw [h2]
    simp [LifeState.Size]
  · apply List.Perm.length_eq
    rw [List.perm_ext_iff_of_nodup hnd (List.nodup_dedup _)]
    intro c
    rw [hmem c, List.mem_dedup]

set_option maxRecDepth 100000 in
/-- C16, as the claim states it, fails: the cell `(2^63 - 1, 0)` is a pair of Go
ints, and three of the cells `ForEachNeighbor` yields for it have the first
coordinate `-2^63`, at distance `2^64 - 1` from it. -/
theorem neighbors_wrap_at_max :
    (Cell.mk (2 ^ 63 - 1) 0).InRange
      ∧ (Cell.mk (2 ^ 63 - 1) 0).ForEachNeighbor (fun c log => log ++ [c]) []
        = [⟨2 ^ 63 - 2, -1⟩, ⟨2 ^ 63 - 2, 0⟩, ⟨2 ^ 63 - 2, 1⟩, ⟨2 ^ 63 - 1, -1⟩,
            ⟨2 ^ 63 - 1, 1⟩, ⟨-(2 ^ 63), -1⟩, ⟨-(2 ^ 63), 0⟩, ⟨-(2 ^ 63), 1⟩]
      ∧ ¬ (∀ d ∈ (Cell.mk (2 ^ 63 - 1) 0).ForEachNeighbor (fun c log => log ++ [c]) [],
          d.X - (2 ^ 63 - 1) ≤ 1 ∧ (2 ^ 63 - 1) - d.X ≤ 1) := by
  decide

/-- C16, amended: for every cell `(x, y)` whose coordinates are not at an end
of the range of `int`, each of the 8 cells `ForEachNeighbor` yields differs
from `(x, y)` by at most 1 in each coordinate, as mathematical integers; at an
end of the range the sum wraps around to the opposite end: for `x` the maximum
the three cells at `dx = 1` have the minimum as first coordinate, for `x` the
minimum the three cells at `dx = -1` have the maximum as first coordinate, and
likewise for `y` with `dy`; every yielded cell is again a pair of ints. -/
theorem neighbors_near (x y : Int) (hx : -(2 ^ 63) < x ∧ x < 2 ^ 63 - 1)
    (hy : -(2 ^ 63) < y ∧ y < 2 ^ 63 - 1) :
    (∀ d ∈ (Cell.mk x y).ForEachNeighbor (fun c log => log ++ [c]) [],
        d.X - x ≤ 1 ∧ x - d.X ≤ 1 ∧ d.Y - y ≤ 1 ∧ y - d.Y ≤ 1)
      ∧ (∀ u v : Int, ∀ d ∈ (Cell.mk u v).ForEachNeighbor (fun c log => log ++ [c]) [],
        d.InRange)
      ∧ (∀ v : Int, (Cell.mk (-(2 ^ 63)) (wrapInt (v + 0)))
        ∈ (Cell.mk (2 ^ 63 - 1) v).ForEachNeighbor (fun c log => log ++ [c]) [])
      ∧ (∀ v : Int, (Cell.mk (2 ^ 63 - 1) v).ForEachNeighbor (fun c log => log ++ [c]) [] =
        [⟨2 ^ 63 - 2, wrapInt (v + -1)⟩, ⟨2 ^ 63 - 2, wrapInt (v + 0)⟩,
          ⟨2 ^ 63 - 2, wrapInt (v + 1)⟩, ⟨2 ^ 63 - 1, wrapInt (v + -1)⟩,
          ⟨2 ^ 63 - 1, wrapInt (v + 1)⟩, ⟨-(2 ^ 63), wrapInt (v + -1)⟩,
          ⟨-(2 ^ 63), wrapInt (v + 0)⟩, ⟨-(2 ^ 63), wrapInt (v + 1)⟩])
      ∧ (∀ v : Int, (Cell.mk (-(2 ^ 63)) v).ForEachNeighbor (fun c log => log ++ [c]) [] =
        [⟨2 ^ 63 - 1, wrapInt (v + -1)⟩, ⟨2 ^ 63 - 1, wrapInt (v + 0)⟩,
          ⟨2 ^ 63 - 1, wrapInt (v + 1)⟩, ⟨-(2 ^ 63), wrapInt (v + -1)⟩,
          ⟨-(2 ^ 63), wrapInt (v + 1)⟩, ⟨-(2 ^ 63) + 1, wrapInt (v + -1)⟩,
          ⟨-(2 ^ 63) + 1, wrapInt (v + 0)⟩, ⟨-(2 ^ 63) + 1, wrapInt (v + 1)⟩])
      ∧ (∀ u : Int, (Cell.mk u (2 ^ 63 - 1)).ForEachNeighbor (fun c log => log ++ [c]) [] =
        [⟨wrapInt (u + -1), 2 ^ 63 - 2⟩, ⟨wrapInt (u + -1), 2 ^ 63 - 1⟩,
          ⟨wrapInt (u + -1), -(2 ^ 63)⟩, ⟨wrapInt (u + 0), 2 ^ 63 - 2⟩,
          ⟨wrapInt (u + 0), -(2 ^ 63)⟩, ⟨wrapInt (u + 1), 2 ^ 63 - 2⟩,
          ⟨wrapInt (u + 1), 2 ^ 63 - 1⟩, ⟨wrapInt (u + 1), -(2 ^ 63)⟩])
      ∧ (∀ u : Int, (Cell.mk u (-(2 ^ 63))).ForEachNeighbor (fun c log => log ++ [c]) [] =
        [⟨wrapInt (u + -1), 2 ^ 63 - 1⟩, ⟨wrapInt (u + -1), -(2 ^ 63)⟩,
          ⟨wrapInt (u + -1), -(2 ^ 63) + 1⟩, ⟨wrapInt (u + 0), 2 ^ 63 - 1⟩,
          ⟨wrapInt (u + 0), -(2 ^ 63) + 1⟩, ⟨wrapInt (u + 1), 2 ^ 63 - 1⟩,
          ⟨wrapInt (u + 1), -(2 ^ 63)⟩, ⟨wrapInt (u + 1), -(2 ^ 63) + 1⟩]) := by
  have m1 : wrapInt (2 ^ 63 - 1 + -1) = 2 ^ 63 - 2 := by decide
  have m2 : wrapInt (2 ^ 63 - 1 + 0) = 2 ^ 63 - 1 := by decide
  have m3 : wrapInt (2 ^ 63 - 1 + 1) = -(2 ^ 63) := by decide
  have n1 : wrapInt (-(2 ^ 63) + -1) = 2 ^ 63 - 1 := by decide
  have n2 : wrapInt (-(2 ^ 63) + 0) = -(2 ^ 63) := by decide
  have n3 : wrapInt (-(2 ^ 63) + 1) = -(2 ^ 63) + 1 := by decide
  refine ⟨?_, ?_, ?_, ?_, ?_, ?_, ?_⟩
  · intro d hd
    rw [forEachNeighbor_log] at hd
    obtain ⟨o, ho, rfl⟩ := (mem_neighbors_iff _ _).mp hd
    obtain ⟨hx1, hx2⟩ := hx
    obtain ⟨hy1, hy2⟩ := hy
    simp only [neighborOffsets, List.mem_cons, List.mem_singleton, List.not_mem_nil,
      or_false] at ho
    simp only [Cell.shift]
    unfold wrapInt
    rcases ho with h | h | h | h | h | h | h | h <;> subst h <;> simp only <;>
      refine ⟨?_, ?_, ?_, ?_⟩ <;> omega
  · intro u v d hd
    rw [forEachNeighbor_log] at hd
    exact inRange_of_mem_neighbors _ d hd
  · intro v
    rw [forEachNeighbor_log]
    refine (mem_neighbors_iff _ _).mpr ⟨(1, 0), by decide, ?_⟩
    simp only [Cell.shift, Cell.mk.injEq, and_true]
    decide
  · intro v
    rw [forEachNeighbor_log]
    simp only [Cell.neighbors, neighborOffsets, Cell.shift, List.map_cons, List.map_nil,
      m1, m2, m3]
  · intro v
    rw [forEachNeighbor_log]
    simp only [Cell.neighbors, neighborOffsets, Cell.shift, List.map_cons, List.map_nil,
      n1, n2, n3]
  · intro u
    rw [forEachNeighbor_log]
    simp only [Cell.neighbors, neighborOffsets, Cell.shift, List.map_cons, List.map_nil,
      m1, m2, m3]
  · intro u
    rw [forEachNeighbor_log]
    simp only [Cell.neighbors, neighborOffsets, Cell.shift, List.map_cons, List.map_nil,
      n1, n2, n3]

theorem neighbors_near_witness :
    ((-(2 ^ 63) : Int) < 4 ∧ (4 : Int) < 2 ^ 63 - 1)
      ∧ ((-(2 ^ 63) : Int) < -7 ∧ (-7 : Int) < 2 ^ 63 - 1)
      ∧ ∀ d ∈ (Cell.mk 4 (-7)).ForEachNeighbor (fun c log => log ++ [c]) [],
        d.X - 4 ≤ 1 ∧ 4 - d.X ≤ 1 ∧ d.Y - -7 ≤ 1 ∧ -7 - d.Y ≤ 1 :=
  ⟨by decide, by decide, (neighbors_near 4 (-7) (by decide) (by decide)).1⟩

/-! ## Seeding -/

theorem tdiv_eight_nonpos (a : Int) (h : a ≤ 0) : a.tdiv 8 ≤ 0 := by
  have h1 : 0 ≤ (-a).tdiv 8 := Int.tdiv_nonneg (by omega) (by decide)
  rw [Int.neg_tdiv] at h1
  omega

theorem rounds_le (w h : Int) (hw : 0 < w) (hh : 0 < h) :
    (((wrapInt (w * h)).tdiv 8).toNat : Int) ≤ w * h / 8 := by
  have hm : 0 < w * h := Int.mul_pos hw hh
  generalize w * h = m at hm
  by_cases hneg : wrapInt m ≤ 0
  · have h1 := tdiv_eight_nonpos _ hneg
    have h2 : ((wrapInt m).tdiv 8).toNat = 0 := Int.toNat_eq_zero.mpr h1
    rw [h2]
    omega
  · have hpos : 0 ≤ wrapInt m := by omega
    rw [Int.tdiv_eq_ediv hpos (by decide), Int.toNat_of_nonneg (by omega)]
    have hle : wrapInt m ≤ m := by
      unfold wrapInt at *
      omega
    omega

theorem mem_set (ls : LifeState) (c : Cell) (a : Bool) (e : Cell × Bool)
    (he : e ∈ ls.assign c a) : e ∈ ls ∨ e = (c, a) := by
  induction ls with
  | nil =>
    simp only [LifeState.assign, List.mem_singleton] at he
    exact Or.inr he
  | cons x rest ih =>
    obtain ⟨k, b⟩ := x
    by_cases hk : k = c
    · simp only [LifeState.assign, hk, if_true, List.mem_cons] at he
      rcases he with he | he
      · exact Or.inr he
      · exact Or.inl (List.mem_cons_of_mem _ he)
    · simp only [LifeState.assign, hk, if_false, List.mem_cons] at he
      rcases he with he | he
      · exact Or.inl (he ▸ List.mem_cons_self _ _)
      · rcases ih he with h | h
        · exact Or.inl (List.mem_cons_of_mem _ h)
        · exact Or.inr h

theorem length_set_le (ls : LifeState) (c : Cell) (a : Bool) :
    (ls.assign c a).length ≤ ls.length + 1 := by
  cases hf : ls.find c with
  | none =>
    rw [set_of_find_none ls c a hf]
    simp
  | some v =>
    have hl := congrArg List.length (keys_set_of_find_some ls c a (by simp [hf]))
    simp only [List.length_map] at hl
    omega

theorem intn_of_pos (raw : Nat) (n : Int) (hn : 0 < n) :
    Intn raw n = Except.ok ((raw : Int) % n) ∧ 0 ≤ (raw : Int) % n ∧ (raw : Int) % n < n := by
  refine ⟨?_, Int.emod_nonneg _ (by omega), Int.emod_lt_of_pos _ hn⟩
  unfold Intn
  rw [if_neg (by omega)]

theorem newLifeStateLoop_ok (src : Nat → Nat) (w h : Int) (hw : 0 < w) (hh : 0 < h)
    (k pos : Nat) (state : LifeState) (hwf : state.WF)
    (hin : ∀ e ∈ state, e.2 = true ∧ 0 ≤ e.1.X ∧ e.1.X < w ∧ 0 ≤ e.1.Y ∧ e.1.Y < h) :
    ∃ ls, newLifeStateLoop src w h k pos state = Except.ok ls ∧ ls.WF
      ∧ (∀ e ∈ ls, e.2 = true ∧ 0 ≤ e.1.X ∧ e.1.X < w ∧ 0 ≤ e.1.Y ∧ e.1.Y < h)
      ∧ ls.length ≤ state.length + k := by
  induction k generalizing pos state with
  | zero => exact ⟨state, rfl, hwf, hin, by omega⟩
  | succ k ih =>
    obtain ⟨hx, hx0, hx1⟩ := intn_of_pos (src pos) w hw
    obtain ⟨hy, hy0, hy1⟩ := intn_of_pos (src (pos + 1)) h hh
    have hin2 : ∀ e ∈ state.assign ⟨(src pos : Int) % w, (src (pos + 1) : Int) % h⟩ true,
        e.2 = true ∧ 0 ≤ e.1.X ∧ e.1.X < w ∧ 0 ≤ e.1.Y ∧ e.1.Y < h := by
      intro e he
      rcases mem_set _ _ _ e he with h1 | h1
      · exact hin e h1
      · subst h1
        exact ⟨rfl, hx0, hx1, hy0, hy1⟩
    obtain ⟨ls, hls, hlwf, hlin, hlen⟩ :=
      ih (pos + 2) _ (wf_set state hwf ⟨(src pos : Int) % w, (src (pos + 1) : Int) % h⟩ true) hin2
    refine ⟨ls, ?_, hlwf, hlin, ?_⟩
    · simp only [newLifeStateLoop, hx, hy]
      exact hls
    · have := length_set_le state ⟨(src pos : Int) % w, (src (pos + 1) : Int) % h⟩ true
      omega

theorem newLifeStateLoop_error (src : Nat → Nat) (w h : Int) (hwh : w ≤ 0 ∨ h ≤ 0)
    (k pos : Nat) (state : LifeState) :
    newLifeStateLoop src w h (k + 1) pos state = Except.error Panic.invalidArgumentToIntn := by
  by_cases hw : w ≤ 0
  · simp [newLifeStateLoop, Intn, hw]
  · have hh : h ≤ 0 := by
      rcases hwh with h1 | h1
      · exact absurd h1 hw
      · exact h1
    simp [newLifeStateLoop, Intn, hw, hh]

/-- C12, as the claim states it, fails: with width 0, and with a negative
width, `NewLifeState` returns the empty state and signals nothing. -/
theorem newLifeState_accepts_nonpositive :
    NewLifeState (fun _ => 0) 0 5 = Except.ok []
      ∧ NewLifeState (fun n => n) (-3) 5 = Except.ok [] :=
  ⟨rfl, rfl⟩

/-- C12, amended: `NewLifeState` makes no check of `w` and `h`. For `w <= 0` or
`h <= 0` it returns the empty state whenever the loop bound `w*h/8` is not
positive, so whenever `w` or `h` is 0; when the bound is positive the first
round fails with the panic of `Intn` on a bound that is not positive. -/
theorem newLifeState_no_check (src : Nat → Nat) (w h : Int) (hwh : w ≤ 0 ∨ h ≤ 0) :
    ((wrapInt (w * h)).tdiv 8 ≤ 0 → NewLifeState src w h = Except.ok [])
      ∧ (1 ≤ (wrapInt (w * h)).tdiv 8 →
        NewLifeState src w h = Except.error Panic.invalidArgumentToIntn)
      ∧ (w = 0 ∨ h = 0 → NewLifeState src w h = Except.ok []) := by
  have h0 : (wrapInt (w * h)).tdiv 8 ≤ 0 → NewLifeState src w h = Except.ok [] := by
    intro hle
    unfold NewLifeState
    rw [Int.toNat_eq_zero.mpr hle]
    rfl
  refine ⟨h0, ?_, ?_⟩
  · intro hge
    unfold NewLifeState
    obtain ⟨k, hk⟩ : ∃ k, ((wrapInt (w * h)).tdiv 8).toNat = k + 1 := by
      refine ⟨((wrapInt (w * h)).tdiv 8).toNat - 1, ?_⟩
      omega
    rw [hk]
    exact newLifeStateLoop_error src w h hwh k 0 []
  · intro hz
    apply h0
    have hm : w * h = 0 := by
      rcases hz with rfl | rfl <;> simp
    rw [hm]
    decide

theorem newLifeState_no_check_witness :
    NewLifeState (fun _ => 0) 0 5 = Except.ok []
      ∧ NewLifeState (fun _ => 0) (-4) (-4) = Except.error Panic.invalidArgumentToIntn :=
  ⟨(newLifeState_no_check (fun _ => 0) 0 5 (Or.inl (by decide))).1 (by decide),
    (newLifeState_no_check (fun _ => 0) (-4) (-4) (Or.inl (by decide))).2.1 (by decide)⟩

/-- C13: for `w > 0` and `h > 0` and every sequence of values of the random
source, `NewLifeState(w, h)` returns a state whose entries are all alive and
lie in `[0, w) x [0, h)`, and whose number of alive cells, equal to its size,
is at most `w*h/8` with integer division. -/
theorem newLifeState_seed (src : Nat → Nat) (w h : Int) (hw : 0 < w) (hh : 0 < h) :
    ∃ ls, NewLifeState src w h = Except.ok ls ∧ ls.WF
      ∧ (∀ e ∈ ls, e.2 = true ∧ 0 ≤ e.1.X ∧ e.1.X < w ∧ 0 ≤ e.1.Y ∧ e.1.Y < h)
      ∧ ls.aliveCells.length = ls.Size
      ∧ (ls.Size : Int) ≤ w * h / 8 := by
  obtain ⟨ls, hls, hwf, hin, hlen⟩ :=
    newLifeStateLoop_ok src w h hw hh ((wrapInt (w * h)).tdiv 8).toNat 0 []
      (by simp [LifeState.WF]) (by simp)
  refine ⟨ls, hls, hwf, hin, ?_, ?_⟩
  · have hf : ls.filter Prod.snd = ls := List.filter_eq_self.mpr (fun e he => (hin e he).1)
    simp [LifeState.aliveCells, LifeState.Size, hf]
  · have hr := rounds_le w h hw hh
    simp only [List.length_nil, Nat.zero_add] at hlen
    unfold LifeState.Size
    omega

theorem newLifeState_seed_witness :
    NewLifeState (fun n => 3 * n + 1) 5 4 = Except.ok [(⟨1, 0⟩, true), (⟨2, 2⟩, true)]
      ∧ ∃ ls, NewLifeState (fun n => 3 * n + 1) 5 4 = Except.ok ls ∧ ls.WF
        ∧ (∀ e ∈ ls, e.2 = true ∧ 0 ≤ e.1.X ∧ e.1.X < 5 ∧ 0 ≤ e.1.Y ∧ e.1.Y < 4)
        ∧ ls.aliveCells.length = ls.Size
        ∧ (ls.Size : Int) ≤ 5 * 4 / 8 :=
  ⟨rfl, newLifeState_seed (fun n => 3 * n + 1) 5 4 (by decide) (by decide)⟩

/-! ## A dead entry in every next state -/

theorem exists_lex_min (l : List Cell) (hne : l ≠ []) :
    ∃ c ∈ l, ∀ d ∈ l, c.X ≤ d.X ∧ (d.X = c.X → c.Y ≤ d.Y) := by
  induction l with
  | nil => exact absurd rfl hne
  | cons a rest ih =>
    by_cases hr : rest = []
    · subst hr
      refine ⟨a, List.mem_cons_self _ _, ?_⟩
      intro d hd
      simp only [List.mem_singleton] at hd
      subst hd
      exact ⟨le_refl _, fun _ => le_refl _⟩
    · obtain ⟨c, hc, hmin⟩ := ih hr
      by_cases hlt : a.X < c.X ∨ (a.X = c.X ∧ a.Y ≤ c.Y)
      · refine ⟨a, List.mem_cons_self _ _, ?_⟩
        intro d hd
        rcases List.mem_cons.mp hd with rfl | hd
        · exact ⟨le_refl _, fun _ => le_refl _⟩
        · obtain ⟨h1, h2⟩ := hmin d hd
          constructor
          · omega
          · intro hx
            have := h2 (by omega)
            omega
      · refine ⟨c, List.mem_cons_of_mem _ hc, ?_⟩
        intro d hd
        rcases List.mem_cons.mp hd with rfl | hd
        · constructor
          · omega
          · intro hx
            omega
        · exact hmin d hd

theorem offset_bounds (o : Int × Int) (ho : o ∈ neighborOffsets) :
    -1 ≤ o.1 ∧ o.1 ≤ 1 ∧ -1 ≤ o.2 ∧ o.2 ≤ 1 := by
  simp only [neighborOffsets, List.mem_cons, List.mem_singleton, List.not_mem_nil,
    or_false] at ho
  rcases ho with h | h | h | h | h | h | h | h <;> subst h <;> decide

/-- The cell below and to the left of the first alive cell in lexicographic
order has that cell as its only alive neighbour. -/
theorem corner_neighbor (x0 ox ex : Int) (h1 : -(2 ^ 63) < x0) (h2 : x0 < 2 ^ 63 - 1)
    (ho1 : -1 ≤ ox) (ho2 : ox ≤ 1) (he : ex = wrapInt (wrapInt (x0 + -1) + ox))
    (hmin : x0 ≤ ex) (hmax : ex < 2 ^ 63 - 1) : ex = x0 := by
  subst he
  unfold wrapInt at *
  omega

theorem aliveNeighbors_corner (ls : LifeState) (c0 : Cell)
    (hin : ∀ c, ls.Alive c = true →
      -(2 ^ 63) < c.X ∧ c.X < 2 ^ 63 - 1 ∧ -(2 ^ 63) < c.Y ∧ c.Y < 2 ^ 63 - 1)
    (h0 : ls.Alive c0 = true)
    (hmin : ∀ d, ls.Alive d = true → c0.X ≤ d.X ∧ (d.X = c0.X → c0.Y ≤ d.Y)) :
    ls.aliveNeighbors (c0.shift (-1, -1)) ≤ 1 := by
  unfold LifeState.aliveNeighbors
  have hnd : ((c0.shift (-1, -1)).neighbors.filter ls.Alive).Nodup :=
    (neighbors_nodup _).filter _
  have hsub : (c0.shift (-1, -1)).neighbors.filter ls.Alive ⊆ [c0] := by
    intro e he
    obtain ⟨hen, hal⟩ := List.mem_filter.mp he
    obtain ⟨o, ho, rfl⟩ := (mem_neighbors_iff _ _).mp hen
    obtain ⟨ho1, ho2, ho3, ho4⟩ := offset_bounds o ho
    obtain ⟨b1, b2, b3, b4⟩ := hin c0 h0
    obtain ⟨e1, e2, e3, e4⟩ := hin _ hal
    obtain ⟨m1, m2⟩ := hmin _ hal
    have hx : ((c0.shift (-1, -1)).shift o).X = c0.X :=
      corner_neighbor c0.X o.1 _ b1 b2 ho1 ho2 rfl m1 e2
    have hy : ((c0.shift (-1, -1)).shift o).Y = c0.Y :=
      corner_neighbor c0.Y o.2 _ b3 b4 ho3 ho4 rfl (m2 hx) e4
    have hc : (c0.shift (-1, -1)).shift o = c0 := by
      cases hs : (c0.shift (-1, -1)).shift o with
      | mk p q =>
        rw [hs] at hx hy
        simp only at hx hy
        subst hx hy
        rfl
    rw [hc]
    exact List.mem_singleton.mpr rfl
  have := (hnd.subperm hsub).length_le
  simpa using this

/-- C19: for every state with at least one alive cell, none of them at an end
of the range of `int` (coordinates as unbounded integers), the next state has
at least one entry recorded false, so its size is strictly greater than its
number of alive cells: the value the driver prints as the number of live cells
after an advance, `Next(ls).Size()`, over-counts. -/
theorem next_has_dead_entry (ls : LifeState) (hwf : ls.WF) (hne : ∃ c, ls.Alive c = true)
    (hin : ∀ c, ls.Alive c = true →
      -(2 ^ 63) < c.X ∧ c.X < 2 ^ 63 - 1 ∧ -(2 ^ 63) < c.Y ∧ c.Y < 2 ^ 63 - 1) :
    (∃ d, (d, false) ∈ ls.Next) ∧ ls.Next.aliveCells.length < ls.Next.Size := by
  have hnil : ls.aliveCells ≠ [] := by
    obtain ⟨c, hc⟩ := hne
    intro h
    have := (alive_iff_mem_aliveCells ls hwf c).mp hc
    rw [h] at this
    exact absurd this (List.not_mem_nil c)
  obtain ⟨c0, hc0, hmin0⟩ := exists_lex_min ls.aliveCells hnil
  have h0 : ls.Alive c0 = true := (alive_iff_mem_aliveCells ls hwf c0).mpr hc0
  have hmin : ∀ d, ls.Alive d = true → c0.X ≤ d.X ∧ (d.X = c0.X → c0.Y ≤ d.Y) :=
    fun d hd => hmin0 d ((alive_iff_mem_aliveCells ls hwf d).mp hd)
  have hn := aliveNeighbors_corner ls c0 hin h0 hmin
  have hmem : c0.shift (-1, -1) ∈ c0.neighbors :=
    (mem_neighbors_iff _ _).mpr ⟨(-1, -1), by decide, rfl⟩
  have hcand : c0.shift (-1, -1) ∈ candidates ls :=
    (mem_candidates_iff ls _).mpr ⟨c0, mem_of_alive ls c0 h0, Or.inr hmem⟩
  have hrule : ls.nextAlive (c0.shift (-1, -1)) = false := by
    have h3 : ls.aliveNeighbors (c0.shift (-1, -1)) ≠ 3 := by omega
    have h2 : ls.aliveNeighbors (c0.shift (-1, -1)) ≠ 2 := by omega
    simp [LifeState.nextAlive, h2, h3]
  have hentry : (c0.shift (-1, -1), false) ∈ ls.Next := by
    rw [← find_eq_some_iff ls.Next (wf_next ls), find_next]
    simp [hcand, hrule]
  refine ⟨⟨_, hentry⟩, ?_⟩
  unfold LifeState.aliveCells LifeState.Size
  rw [List.length_map, List.length_filter_lt_length_iff_exists]
  exact ⟨_, hentry, by simp⟩

set_option maxRecDepth 100000 in
theorem next_has_dead_entry_witness :
    blinker.WF ∧ blinker.Next.aliveCells.length = 3 ∧ blinker.Next.Size = 15
      ∧ ((∃ d, (d, false) ∈ blinker.Next)
        ∧ blinker.Next.aliveCells.length < blinker.Next.Size) :=
  ⟨by decide, by decide, by decide,
    next_has_dead_entry blinker (by decide) ⟨⟨0, 0⟩, by decide⟩ (by
      intro c hc
      rcases (blinker_alive c).mp hc with rfl | rfl | rfl <;> decide)⟩

/-! ## Translation -/

theorem translate_inj (a b : Int) (c d : Cell) (hc : c.InRange) (hd : d.InRange)
    (h : c.translate a b = d.translate a b) : c = d := by
  obtain ⟨cx, cy⟩ := c
  obtain ⟨dx, dy⟩ := d
  obtain ⟨c1, c2, c3, c4⟩ := hc
  obtain ⟨d1, d2, d3, d4⟩ := hd
  simp only [Cell.translate, Cell.mk.injEq] at h c1 c2 c3 c4 d1 d2 d3 d4 ⊢
  obtain ⟨hx, hy⟩ := h
  unfold wrapInt at hx hy
  constructor <;> omega

theorem translate_inRange (a b : Int) (c : Cell) : (c.translate a b).InRange :=
  ⟨wrapInt_lower _, wrapInt_upper _, wrapInt_lower _, wrapInt_upper _⟩

theorem shift_translate (a b : Int) (c : Cell) (o : Int × Int) :
    (c.translate a b).shift o = (c.shift o).translate a b := by
  simp only [Cell.shift, Cell.translate, Cell.mk.injEq]
  unfold wrapInt
  constructor <;> omega

theorem neighbors_translate (a b : Int) (c : Cell) :
    (c.translate a b).neighbors = c.neighbors.map (Cell.translate a b) := by
  unfold Cell.neighbors
  rw [List.map_map]
  apply List.map_congr_left
  intro o _
  exact shift_translate a b c o

theorem find_translate (a b : Int) (ns : LifeState) (hin : ∀ e ∈ ns, e.1.InRange)
    (c : Cell) (hc : c.InRange) :
    (ns.translate a b).find (c.translate a b) = ns.find c := by
  induction ns with
  | nil => rfl
  | cons e rest ih =>
    obtain ⟨k, v⟩ := e
    have hk : k.InRange := hin (k, v) (List.mem_cons_self _ _)
    have hrest : ∀ e ∈ rest, e.1.InRange := fun e he => hin e (List.mem_cons_of_mem _ he)
    have ih2 := ih hrest
    unfold LifeState.translate at ih2 ⊢
    by_cases hkc : k = c
    · subst hkc
      simp [LifeState.find]
    · have hne : ¬ k.translate a b = c.translate a b :=
        fun h => hkc (translate_inj a b k c hk hc h)
      simp only [List.map_cons, LifeState.find, hne, hkc, if_false]
      exact ih2

theorem set_translate (a b : Int) (ns : LifeState) (hin : ∀ e ∈ ns, e.1.InRange)
    (c : Cell) (hc : c.InRange) (v : Bool) :
    (ns.translate a b).assign (c.translate a b) v = (ns.assign c v).translate a b := by
  induction ns with
  | nil => rfl
  | cons e rest ih =>
    obtain ⟨k, u⟩ := e
    have hk : k.InRange := hin (k, u) (List.mem_cons_self _ _)
    have hrest : ∀ e ∈ rest, e.1.InRange := fun e he => hin e (List.mem_cons_of_mem _ he)
    have ih2 := ih hrest
    unfold LifeState.translate at ih2 ⊢
    by_cases hkc : k = c
    · subst hkc
      simp [LifeState.assign]
    · have hne : ¬ k.translate a b = c.translate a b :=
        fun h => hkc (translate_inj a b k c hk hc h)
      simp only [List.map_cons, LifeState.assign, hne, hkc, if_false, List.cons.injEq, true_and]
      exact ih2

theorem alive_translate (a b : Int) (ls : LifeState) (hin : ∀ e ∈ ls, e.1.InRange)
    (c : Cell) (hc : c.InRange) :
    (ls.translate a b).Alive (c.translate a b) = ls.Alive c := by
  unfold LifeState.Alive
  rw [find_translate a b ls hin c hc]

theorem aliveNeighbors_translate (a b : Int) (ls : LifeState)
    (hin : ∀ e ∈ ls, e.1.InRange) (c : Cell) :
    (ls.translate a b).aliveNeighbors (c.translate a b) = ls.aliveNeighbors c := by
  unfold LifeState.aliveNeighbors
  rw [neighbors_translate, ← List.countP_eq_length_filter, ← List.countP_eq_length_filter,
    List.countP_map]
  apply List.countP_congr
  intro d hd
  simp only [Function.comp]
  rw [alive_translate a b ls hin d (inRange_of_mem_neighbors c d hd)]

theorem nextAlive_translate (a b : Int) (ls : LifeState) (hin : ∀ e ∈ ls, e.1.InRange)
    (c : Cell) (hc : c.InRange) :
    (ls.translate a b).nextAlive (c.translate a b) = ls.nextAlive c := by
  unfold LifeState.nextAlive
  rw [aliveNeighbors_translate a b ls hin c, alive_translate a b ls hin c hc]

theorem inRange_calcNextCellState (ls : LifeState) (c : Cell) (ns : LifeState)
    (hns : ∀ e ∈ ns, e.1.InRange) (hc : c.InRange) :
    ∀ e ∈ calcNextCellState ls c ns, e.1.InRange := by
  rw [calcNextCellState_eq]
  split
  · exact hns
  · intro e he
    rcases mem_set ns c _ e he with h | h
    · exact hns e h
    · rw [h]
      exact hc

theorem calcNextCellState_translate (a b : Int) (ls : LifeState)
    (hin : ∀ e ∈ ls, e.1.InRange) (c : Cell) (hc : c.InRange) (ns : LifeState)
    (hns : ∀ e ∈ ns, e.1.InRange) :
    calcNextCellState (ls.translate a b) (c.translate a b) (ns.translate a b)
      = (calcNextCellState ls c ns).translate a b := by
  rw [calcNextCellState_eq, calcNextCellState_eq, find_translate a b ns hns c hc,
    nextAlive_translate a b ls hin c hc]
  split
  · rfl
  · exact set_translate a b ns hns c hc _

theorem calcAll_translate (a b : Int) (ls : LifeState) (hin : ∀ e ∈ ls, e.1.InRange)
    (cells : List Cell) (hcells : ∀ c ∈ cells, c.InRange) (ns : LifeState)
    (hns : ∀ e ∈ ns, e.1.InRange) :
    calcAll (ls.translate a b) (cells.map (Cell.translate a b)) (ns.translate a b)
      = (calcAll ls cells ns).translate a b := by
  induction cells generalizing ns with
  | nil => rfl
  | cons c rest ih =>
    have hc : c.InRange := hcells c (List.mem_cons_self _ _)
    have hrest : ∀ c ∈ rest, c.InRange := fun d hd => hcells d (List.mem_cons_of_mem _ hd)
    have hstep : calcAll ls (c :: rest) ns = calcAll ls rest (calcNextCellState ls c ns) := rfl
    have hstep2 : calcAll (ls.translate a b) ((c :: rest).map (Cell.translate a b))
          (ns.translate a b)
        = calcAll (ls.translate a b) (rest.map (Cell.translate a b))
          (calcNextCellState (ls.translate a b) (c.translate a b) (ns.translate a b)) := rfl
    rw [hstep, hstep2, calcNextCellState_translate a b ls hin c hc ns hns]
    exact ih hrest _ (inRange_calcNextCellState ls c ns hns hc)

theorem candidates_translate (a b : Int) (ls : LifeState) :
    candidates (ls.translate a b) = (candidates ls).map (Cell.translate a b) := by
  induction ls with
  | nil => rfl
  | cons e rest ih =>
    obtain ⟨c, v⟩ := e
    have h1 : candidates ((c, v) :: rest)
        = (if v then c :: c.neighbors else []) ++ candidates rest := by
      simp only [candidates, List.flatMap_cons]
    have h2 : candidates (LifeState.translate a b ((c, v) :: rest))
        = (if v then c.translate a b :: (c.translate a b).neighbors else [])
          ++ candidates (LifeState.translate a b rest) := by
      simp only [candidates, LifeState.translate, List.map_cons, List.flatMap_cons]
    rw [h1, h2, ih, List.map_append]
    cases v
    · rfl
    · simp only [if_true, List.map_cons, neighbors_translate]

theorem candidates_inRange (ls : LifeState) (hin : ∀ e ∈ ls, e.1.InRange) :
    ∀ c ∈ candidates ls, c.InRange := by
  intro c hc
  obtain ⟨d, hd, hcd⟩ := (mem_candidates_iff ls c).mp hc
  rcases hcd with rfl | hn
  · exact hin _ hd
  · exact inRange_of_mem_neighbors d c hn

theorem next_translate_eq (a b : Int) (ls : LifeState) (hin : ∀ e ∈ ls, e.1.InRange) :
    (ls.translate a b).Next = ls.Next.translate a b := by
  have h1 : (ls.translate a b).Next
      = calcAll (ls.translate a b) (candidates (ls.translate a b)) [] := nextOver_eq _ _
  have h2 : ls.Next = calcAll ls (candidates ls) [] := nextOver_eq _ _
  rw [h1, h2, candidates_translate]
  exact calcAll_translate a b ls hin (candidates ls) (candidates_inRange ls hin) []
    (fun e he => absurd he (List.not_mem_nil e))

/-- C18: `Next` commutes with translation: for every state (its cells pairs
of Go ints) and every offset `(a, b)`, the next state of the state with every
entry moved from `(x, y)` to `(x+a, y+b)` is the next state with every entry
moved by the same offset, entry for entry. The sums are Go's; where they do not
overflow, which is always so for unbounded integers, the move is the
mathematical one. -/
theorem next_commutes_with_translation (ls : LifeState) (hin : ∀ e ∈ ls, e.1.InRange)
    (a b : Int) :
    (ls.translate a b).Next = ls.Next.translate a b
      ∧ (∀ c : Cell, c.InRange →
          (ls.translate a b).Next.Alive (c.translate a b) = ls.Next.Alive c)
      ∧ (ls.translate a b).Next.Size = ls.Next.Size
      ∧ (∀ c : Cell, -(2 ^ 63) ≤ c.X + a → c.X + a < 2 ^ 63 → -(2 ^ 63) ≤ c.Y + b →
          c.Y + b < 2 ^ 63 → c.translate a b = ⟨c.X + a, c.Y + b⟩) := by
  have h := next_translate_eq a b ls hin
  have hkeys : ∀ e ∈ ls.Next, e.1.InRange := by
    intro e he
    apply candidates_inRange ls hin
    rw [← mem_keys_next_iff]
    exact List.mem_map.mpr ⟨e, he, rfl⟩
  refine ⟨h, ?_, ?_, ?_⟩
  · intro c hc
    rw [h]
    exact alive_translate a b ls.Next hkeys c hc
  · rw [h]
    simp [LifeState.Size, LifeState.translate]
  · intro c h1 h2 h3 h4
    simp only [Cell.translate, Cell.mk.injEq]
    exact ⟨wrapInt_of_inRange _ h1 h2, wrapInt_of_inRange _ h3 h4⟩

set_option maxRecDepth 100000 in
theorem next_commutes_with_translation_witness :
    (∀ e ∈ blinker, e.1.InRange)
      ∧ blinker.translate 10 (-3) = [(⟨10, -3⟩, true), (⟨11, -3⟩, true), (⟨12, -3⟩, true)]
      ∧ (blinker.translate 10 (-3)).Next = blinker.Next.translate 10 (-3) :=
  ⟨by decide, by decide, (next_commutes_with_translation blinker (by decide) 10 (-3)).1⟩

end GameOfLife
